import Mathlib

/-!
Verification of the sales/cut spreadsheet ingestion and aggregation pipeline
(`dataProcessing` module: `cleanNumber`, `formatDate`, `parseExcelFile`'s
row-processing stage, `aggregateBy`, `prepareDataTable`, `calculateMetrics`).

Modelling conventions (shallow embedding of the TypeScript source):
* JS numbers are modelled by `ℚ` (the source only performs `+ - * /` and
  comparisons on finite values; `NaN`/`Infinity` cells are outside the model).
* JS strings are Lean `String`s; all string operations used by the source
  (`trim`, `toLowerCase`, `includes`, `lastIndexOf`, `split`, `replace`,
  regex matches) are re-implemented on the underlying `List Char`, with JS
  semantics (e.g. `String.replace(',', '.')` replaces only the first
  occurrence).
* A spreadsheet cell is a tagged variant: text, number, typed date, or
  empty (`null`/`undefined` cells behave identically in every operation the
  source applies to them, so one `empty` constructor covers both).
* JS `Map` objects are association lists in insertion order: `set` of an
  existing key updates the value in place, `set` of a new key appends;
  iteration (`forEach`, `entries`, `values`) follows insertion order.
* `Array.prototype.sort` (stable in modern engines) is modelled by a stable
  insertion sort parametrised by the comparator's `≤`-relation;
  `localeCompare` on the ASCII strings produced by the pipeline is code-point
  comparison.
-/

/-! ## Decimal digits and numerals -/

/-- The decimal digit character for `n` (`n < 10`; other inputs give `'*'`,
which never occurs in the pipeline). -/
def digitChar (n : ℕ) : Char :=
  match n with
  | 0 => '0' | 1 => '1' | 2 => '2' | 3 => '3' | 4 => '4'
  | 5 => '5' | 6 => '6' | 7 => '7' | 8 => '8' | 9 => '9'
  | _ => '*'

/-- Numeric value of a digit character. -/
def digitVal (c : Char) : ℕ := c.toNat - 48

/-- Fuel-driven digit expansion (structural recursion so that the kernel can
evaluate it; the fuel is never exhausted when it exceeds `n`). -/
def natDigitsAux : ℕ → ℕ → List Char
  | 0, _ => []
  | fuel + 1, n =>
    if n < 10 then [digitChar n]
    else natDigitsAux fuel (n / 10) ++ [digitChar (n % 10)]

/-- Decimal digits of a natural number, most significant first
(JS `String(n)` for a non-negative integer). -/
def natDigits (n : ℕ) : List Char := natDigitsAux (n + 1) n

theorem natDigitsAux_fuel {fuel fuel' n : ℕ} (h : n < fuel) (h' : n < fuel') :
    natDigitsAux fuel n = natDigitsAux fuel' n := by
  induction fuel generalizing fuel' n with
  | zero => omega
  | succ fuel ih =>
    cases fuel' with
    | zero => omega
    | succ fuel' =>
      simp only [natDigitsAux]
      by_cases h10 : n < 10
      · simp [h10]
      · simp only [h10, if_false]
        congr 1
        exact @ih fuel' (n / 10) (by omega) (by omega)

/-- The defining recurrence of `natDigits`. -/
theorem natDigits_eq (n : ℕ) :
    natDigits n = if n < 10 then [digitChar n]
      else natDigits (n / 10) ++ [digitChar (n % 10)] := by
  show natDigitsAux (n + 1) n = _
  simp only [natDigitsAux]
  by_cases h10 : n < 10
  · simp [h10]
  · simp only [h10, if_false]
    congr 1
    exact natDigitsAux_fuel (by omega) (by omega)

/-- Value of a digit string read left to right (the value attached to the
digit-runs produced by the matchers below, and JS `parseInt` on an
all-digit string). -/
def digitsVal (l : List Char) : ℕ := l.foldl (fun a c => 10 * a + digitVal c) 0

theorem digitVal_digitChar {n : ℕ} (h : n < 10) : digitVal (digitChar n) = n := by
  interval_cases n <;> rfl

theorem isDigit_digitChar {n : ℕ} (h : n < 10) : (digitChar n).isDigit = true := by
  interval_cases n <;> rfl

theorem digitsVal_append (l : List Char) (c : Char) :
    digitsVal (l ++ [c]) = 10 * digitsVal l + digitVal c := by
  simp [digitsVal, List.foldl_append]

theorem digitsVal_cons_zero (l : List Char) : digitsVal ('0' :: l) = digitsVal l := by
  simp [digitsVal]
  rfl

theorem natDigits_all_digit (n : ℕ) : ∀ c ∈ natDigits n, c.isDigit = true := by
  induction n using Nat.strong_induction_on with
  | _ n ih =>
    rw [natDigits_eq]
    split
    · next h => intro c hc; simp at hc; subst hc; exact isDigit_digitChar h
    · next h =>
      intro c hc
      simp only [List.mem_append, List.mem_singleton] at hc
      rcases hc with hc | hc
      · exact ih (n / 10) (Nat.div_lt_self (by omega) (by omega)) c hc
      · subst hc; exact isDigit_digitChar (Nat.mod_lt _ (by omega))

theorem digitsVal_natDigits (n : ℕ) : digitsVal (natDigits n) = n := by
  induction n using Nat.strong_induction_on with
  | _ n ih =>
    rw [natDigits_eq]
    split
    · next h =>
      simp [digitsVal, digitVal_digitChar h]
    · next h =>
      rw [digitsVal_append, ih (n / 10) (Nat.div_lt_self (by omega) (by omega)),
        digitVal_digitChar (Nat.mod_lt _ (by omega))]
      omega

theorem natDigits_ne_nil (n : ℕ) : natDigits n ≠ [] := by
  rw [natDigits_eq]; split <;> simp

theorem natDigits_length_one {n : ℕ} (h : n < 10) : (natDigits n).length = 1 := by
  rw [natDigits_eq]; simp [h]

theorem natDigits_length_two {n : ℕ} (h1 : 10 ≤ n) (h2 : n < 100) :
    (natDigits n).length = 2 := by
  rw [natDigits_eq]
  have : ¬ n < 10 := by omega
  simp only [this, if_false, List.length_append, List.length_singleton]
  rw [natDigits_length_one (by omega)]

/-- `String(n).padStart(2, '0')` for a digit list. -/
def pad2list (l : List Char) : List Char := List.replicate (2 - l.length) '0' ++ l

/-- `String(n).padStart(2, '0')` for a natural number. -/
def pad2 (n : ℕ) : List Char := pad2list (natDigits n)

/-- Zero-pad the decimal digits of `n` to width 4 (`toISOString` year field). -/
def pad4 (n : ℕ) : List Char := List.replicate (4 - (natDigits n).length) '0' ++ natDigits n

/-- Zero-pad the decimal digits of `n` to width 6 (`toISOString` expanded-year field). -/
def pad6 (n : ℕ) : List Char := List.replicate (6 - (natDigits n).length) '0' ++ natDigits n

theorem pad2_length {n : ℕ} (h : n < 100) : (pad2 n).length = 2 := by
  unfold pad2 pad2list
  simp only [List.length_append, List.length_replicate]
  by_cases h1 : n < 10
  · rw [natDigits_length_one h1]
  · rw [natDigits_length_two (by omega) h]

theorem pad2_all_digit (n : ℕ) : ∀ c ∈ pad2 n, c.isDigit = true := by
  intro c hc
  unfold pad2 pad2list at hc
  rcases List.mem_append.mp hc with hc | hc
  · rw [List.eq_of_mem_replicate hc]; rfl
  · exact natDigits_all_digit n c hc

theorem digitsVal_replicate_zero (k : ℕ) (l : List Char) :
    digitsVal (List.replicate k '0' ++ l) = digitsVal l := by
  induction k with
  | zero => rfl
  | succ k ih =>
    rw [List.replicate_succ, List.cons_append, digitsVal_cons_zero, ih]

theorem digitsVal_pad4 (n : ℕ) : digitsVal (pad4 n) = n := by
  rw [pad4, digitsVal_replicate_zero, digitsVal_natDigits]

theorem digitsVal_pad6 (n : ℕ) : digitsVal (pad6 n) = n := by
  rw [pad6, digitsVal_replicate_zero, digitsVal_natDigits]

theorem pad4_all_digit (n : ℕ) : ∀ c ∈ pad4 n, c.isDigit = true := by
  intro c hc
  rcases List.mem_append.mp hc with hc | hc
  · rw [List.eq_of_mem_replicate hc]; rfl
  · exact natDigits_all_digit n c hc

theorem pad6_all_digit (n : ℕ) : ∀ c ∈ pad6 n, c.isDigit = true := by
  intro c hc
  rcases List.mem_append.mp hc with hc | hc
  · rw [List.eq_of_mem_replicate hc]; rfl
  · exact natDigits_all_digit n c hc

theorem pad4_length_ge (n : ℕ) : 4 ≤ (pad4 n).length := by
  unfold pad4
  simp only [List.length_append, List.length_replicate]
  omega

theorem pad6_length_ge (n : ℕ) : 4 ≤ (pad6 n).length := by
  unfold pad6
  simp only [List.length_append, List.length_replicate]
  omega

/-! ## JS string primitives on character lists -/

/-- JS whitespace for `String.trim` / `\s` (the code points relevant to the
pipeline's ASCII/Latin-1 inputs). -/
def isJsWS (c : Char) : Bool :=
  c = ' ' || c = '\t' || c = '\n' || c = '\r' || c = '\x0b' || c = '\x0c'

/-- `String.prototype.trim` on the character list. -/
def trimChars (l : List Char) : List Char :=
  ((l.dropWhile isJsWS).reverse.dropWhile isJsWS).reverse

/-- ASCII branch of `String.prototype.toLowerCase`.  (JS also lowercases
accented letters; the pipeline's keyword tables are already lower-case and no
verified claim depends on non-ASCII upper-case input, so the model maps
non-ASCII characters to themselves.) -/
def jsLowerChar (c : Char) : Char :=
  if 'A' ≤ c ∧ c ≤ 'Z' then Char.ofNat (c.toNat + 32) else c

def lowerChars (l : List Char) : List Char := l.map jsLowerChar

/-- `String.prototype.lastIndexOf` for a single character (`-1` if absent). -/
def lastIndexOf (c : Char) : List Char → ℤ
  | [] => -1
  | a :: rest =>
    if lastIndexOf c rest ≠ -1 then lastIndexOf c rest + 1
    else if a = c then 0 else -1

/-- `String.prototype.replace(a, b)` with a non-global single-character
pattern: replaces only the first occurrence. -/
def replaceFirst (a b : Char) : List Char → List Char
  | [] => []
  | c :: rest => if c = a then b :: rest else c :: replaceFirst a b rest

/-- `String.prototype.split(c)`. -/
def splitOnChar (c : Char) : List Char → List (List Char)
  | [] => [[]]
  | a :: rest =>
    if a = c then [] :: splitOnChar c rest
    else match splitOnChar c rest with
      | [] => [[a]]
      | g :: gs => (a :: g) :: gs

/-- Does `l` start with `p`? -/
def startsWithChars : List Char → List Char → Bool
  | _, [] => true
  | [], _ :: _ => false
  | a :: l, b :: p => a = b && startsWithChars l p

/-- `String.prototype.includes` (substring test). -/
def containsSub (l pat : List Char) : Bool :=
  l.tails.any (fun t => startsWithChars t pat)

/-! ## Stable sort (model of `Array.prototype.sort`)

`le a b` is "comparator(a, b) ≤ 0", i.e. `a` may stay before `b`.  The sort is
stable: an element is inserted before the first element it `le`-precedes, so
elements the comparator ties keep their original relative order, as in modern
JS engines. -/

def insertLe {α : Type} (le : α → α → Bool) (a : α) : List α → List α
  | [] => [a]
  | b :: t => if le a b then a :: b :: t else b :: insertLe le a t

def sortLe {α : Type} (le : α → α → Bool) (l : List α) : List α :=
  l.foldr (insertLe le) []

theorem mem_insertLe {α : Type} (le : α → α → Bool) (a x : α) (l : List α) :
    x ∈ insertLe le a l ↔ x = a ∨ x ∈ l := by
  induction l with
  | nil => simp [insertLe]
  | cons b t ih =>
    unfold insertLe
    split
    · simp
    · simp only [List.mem_cons, ih]
      tauto

theorem mem_sortLe {α : Type} (le : α → α → Bool) (x : α) (l : List α) :
    x ∈ sortLe le l ↔ x ∈ l := by
  induction l with
  | nil => simp [sortLe]
  | cons b t ih =>
    simp only [sortLe, List.foldr_cons, mem_insertLe, List.mem_cons]
    rw [← sortLe, ih]

theorem perm_insertLe {α : Type} (le : α → α → Bool) (a : α) (l : List α) :
    List.Perm (insertLe le a l) (a :: l) := by
  induction l with
  | nil => simp [insertLe]
  | cons b t ih =>
    unfold insertLe
    split
    · exact List.Perm.refl _
    · exact (List.Perm.cons b ih).trans (List.Perm.swap a b t)

theorem perm_sortLe {α : Type} (le : α → α → Bool) (l : List α) :
    List.Perm (sortLe le l) l := by
  induction l with
  | nil => exact List.Perm.refl _
  | cons b t ih =>
    simp only [sortLe, List.foldr_cons]
    exact (perm_insertLe le b _).trans (List.Perm.cons b ih)

/-! ## Lemmas about the string primitives -/

theorem dropWhile_eq_self_of_not {p : Char → Bool} {l : List Char}
    (h : ∀ c ∈ l, p c = false) : l.dropWhile p = l := by
  cases l with
  | nil => rfl
  | cons a t =>
    rw [List.dropWhile_cons, h a (List.mem_cons_self a t)]
    simp

theorem trimChars_eq_self {l : List Char} (h : ∀ c ∈ l, isJsWS c = false) :
    trimChars l = l := by
  unfold trimChars
  rw [dropWhile_eq_self_of_not h, dropWhile_eq_self_of_not, List.reverse_reverse]
  intro c hc
  exact h c (List.mem_reverse.mp hc)

theorem lastIndexOf_neg {c : Char} {l : List Char} (h : c ∉ l) :
    lastIndexOf c l = -1 := by
  induction l with
  | nil => rfl
  | cons a t ih =>
    have h1 : c ∉ t := fun hm => h (List.mem_cons_of_mem a hm)
    have h2 : ¬ a = c := fun ha => h (ha ▸ List.mem_cons_self a t)
    simp [lastIndexOf, ih h1, h2]

theorem lastIndexOf_nonneg {c : Char} {l : List Char} (h : c ∈ l) :
    0 ≤ lastIndexOf c l := by
  induction l with
  | nil => simp at h
  | cons a t ih =>
    by_cases hm : c ∈ t
    · have := ih hm
      rw [lastIndexOf, if_pos (by omega)]
      omega
    · have h2 : a = c := by
        rcases List.mem_cons.mp h with h | h
        · exact h.symm
        · exact absurd h hm
      rw [lastIndexOf, lastIndexOf_neg hm, if_neg (by simp), if_pos h2]

theorem lastIndexOf_lt_length (c : Char) (l : List Char) :
    lastIndexOf c l < l.length := by
  induction l with
  | nil => simp [lastIndexOf]
  | cons a t ih =>
    rw [lastIndexOf]
    simp only [List.length_cons]
    split
    · push_cast
      omega
    · split
      · push_cast
        positivity
      · push_cast
        omega

theorem lastIndexOf_append_right {c : Char} (l₁ : List Char) {l₂ : List Char}
    (h : c ∈ l₂) : lastIndexOf c (l₁ ++ l₂) = l₁.length + lastIndexOf c l₂ := by
  induction l₁ with
  | nil => simp
  | cons a t ih =>
    have hnn : 0 ≤ lastIndexOf c (t ++ l₂) := by
      rw [ih]
      have := lastIndexOf_nonneg h
      omega
    rw [List.cons_append, lastIndexOf, if_pos (by omega), ih]
    simp only [List.length_cons]
    push_cast
    ring

theorem lastIndexOf_append_left {c : Char} {l₁ : List Char} (l₂ : List Char)
    (h : c ∉ l₂) : lastIndexOf c (l₁ ++ l₂) = lastIndexOf c l₁ := by
  induction l₁ with
  | nil => simpa using lastIndexOf_neg h
  | cons a t ih =>
    rw [List.cons_append, lastIndexOf, ih, lastIndexOf]

theorem replaceFirst_append_left {a b : Char} {l₁ : List Char} (l₂ : List Char)
    (h : a ∉ l₁) : replaceFirst a b (l₁ ++ l₂) = l₁ ++ replaceFirst a b l₂ := by
  induction l₁ with
  | nil => rfl
  | cons x t ih =>
    have hx : ¬ x = a := by rintro rfl; exact h (List.mem_cons_self x t)
    have ht := ih (fun hm => h (List.mem_cons_of_mem x hm))
    simp only [List.cons_append, replaceFirst, if_neg hx]
    rw [show t.append l₂ = t ++ l₂ from rfl, ht]

theorem filter_eq_self_of_all {p : Char → Bool} {l : List Char}
    (h : ∀ c ∈ l, p c = true) : l.filter p = l :=
  List.filter_eq_self.mpr h

theorem filter_append_left_all {p : Char → Bool} {l₁ : List Char} (l₂ : List Char)
    (h : ∀ c ∈ l₁, p c = true) :
    (l₁ ++ l₂).filter p = l₁ ++ l₂.filter p := by
  rw [List.filter_append, filter_eq_self_of_all h]

theorem takeWhile_append_all {p : Char → Bool} {l₁ : List Char} (l₂ : List Char)
    (h : ∀ c ∈ l₁, p c = true) :
    (l₁ ++ l₂).takeWhile p = l₁ ++ l₂.takeWhile p := by
  induction l₁ with
  | nil => rfl
  | cons a t ih =>
    rw [List.cons_append, List.takeWhile_cons, h a (List.mem_cons_self a t),
      ih (fun c hc => h c (List.mem_cons_of_mem a hc))]
    rfl

theorem dropWhile_append_all {p : Char → Bool} {l₁ : List Char} (l₂ : List Char)
    (h : ∀ c ∈ l₁, p c = true) :
    (l₁ ++ l₂).dropWhile p = l₂.dropWhile p := by
  induction l₁ with
  | nil => rfl
  | cons a t ih =>
    rw [List.cons_append, List.dropWhile_cons, h a (List.mem_cons_self a t)]
    simpa using ih (fun c hc => h c (List.mem_cons_of_mem a hc))

theorem takeWhile_cons_false {p : Char → Bool} {a : Char} (l : List Char)
    (h : p a = false) : (a :: l).takeWhile p = [] := by
  rw [List.takeWhile_cons, h]
  simp

theorem dropWhile_cons_false {p : Char → Bool} {a : Char} (l : List Char)
    (h : p a = false) : (a :: l).dropWhile p = a :: l := by
  rw [List.dropWhile_cons, h]
  simp

/-! ## Cells -/

/-- A JS `Date` object as observed through `getFullYear`/`getMonth`/`getDate`
(local-time civil fields; `month` is 0-based, `day` 1-based, like JS).  Real
`Date` objects always hold a valid calendar date; the model only records the
field ranges the proofs use. -/
structure JSDate where
  year : ℤ
  month : ℕ
  day : ℕ
  month_lt : month < 12
  day_pos : 1 ≤ day
  day_le : day ≤ 31

/-- A raw spreadsheet cell: text, number, typed date, or `null`/`undefined`. -/
inductive CellValue where
  | empty
  | num (q : ℚ)
  | str (s : String)
  | date (d : JSDate)

/-! ## `parseFloat` and `cleanNumber` -/

/-- JS `parseFloat` on a string over the alphabet produced by `cleanNumber`'s
character filter (digits, `,`, `.`, `-`; no exponents or whitespace can
survive the filter): an optional sign, then the longest
`digits ['.' digits]` prefix; `none` models `NaN`. -/
def jsParseFloat (l : List Char) : Option ℚ :=
  let sign : ℚ := if l.head? = some '-' then -1 else 1
  let l1 := if l.head? = some '-' ∨ l.head? = some '+' then l.tail else l
  let ip := l1.takeWhile Char.isDigit
  let r1 := l1.dropWhile Char.isDigit
  let fp := if r1.head? = some '.' then r1.tail.takeWhile Char.isDigit else []
  if ip = [] ∧ fp = [] then none
  else some (sign * ((digitsVal ip : ℚ) + (digitsVal fp : ℚ) / 10 ^ fp.length))

/-- The character class kept by `clean.replace(/[^\d,.-]/g, '')`. -/
def keepNumChar (c : Char) : Bool := c.isDigit || c = ',' || c = '.' || c = '-'

/-- The separator-disambiguation heuristic of `cleanNumber` (dataProcessing
lines 14–33), applied to the already trimmed and character-filtered string:
`lastIndexOf`-based BRL/US branch selection, thousands-separator stripping,
first-comma decimal-mark replacement, and the 3-digit trailing-group rule for
dot-only strings. -/
def sepHeuristic (clean0 : List Char) : List Char :=
  if lastIndexOf '.' clean0 ≠ -1 ∧ lastIndexOf ',' clean0 ≠ -1 then
    if lastIndexOf ',' clean0 > lastIndexOf '.' clean0 then
      replaceFirst ',' '.' (clean0.filter (· != '.'))
    else clean0.filter (· != ',')
  else if lastIndexOf ',' clean0 ≠ -1 then
    replaceFirst ',' '.' clean0
  else if lastIndexOf '.' clean0 ≠ -1 then
    if 1 < (splitOnChar '.' clean0).length ∧
        (((splitOnChar '.' clean0).getLast?).getD []).length = 3 then
      clean0.filter (· != '.')
    else clean0
  else clean0

/-- `cleanNumber` (dataProcessing lines 7–38): numbers pass through, text is
trimmed, stripped to `[\d,.-]`, separator-disambiguated by the BRL/US
heuristic, and `parseFloat`-ed with `|| 0` (`parseFloat` never yields `NaN`
on a non-empty parse, so `|| 0` only converts the `NaN` case and `-0`, which
`ℚ` does not distinguish); all other cell types give 0. -/
def cleanNumber : CellValue → ℚ
  | .num q => q
  | .str s => (jsParseFloat (sepHeuristic ((trimChars s.data).filter keepNumChar))).getD 0
  | _ => 0

/-! ## Character class facts -/

theorem not_ws_of_digit {c : Char} (h : c.isDigit = true) : isJsWS c = false := by
  have h1 : c ≠ ' ' := by rintro rfl; exact absurd h (by decide)
  have h2 : c ≠ '\t' := by rintro rfl; exact absurd h (by decide)
  have h3 : c ≠ '\n' := by rintro rfl; exact absurd h (by decide)
  have h4 : c ≠ '\r' := by rintro rfl; exact absurd h (by decide)
  have h5 : c ≠ '\x0b' := by rintro rfl; exact absurd h (by decide)
  have h6 : c ≠ '\x0c' := by rintro rfl; exact absurd h (by decide)
  simp [isJsWS, h1, h2, h3, h4, h5, h6]

theorem digit_ne_dot {c : Char} (h : c.isDigit = true) : c ≠ '.' := by
  rintro rfl; exact absurd h (by decide)

theorem digit_ne_comma {c : Char} (h : c.isDigit = true) : c ≠ ',' := by
  rintro rfl; exact absurd h (by decide)

theorem digit_ne_dash {c : Char} (h : c.isDigit = true) : c ≠ '-' := by
  rintro rfl; exact absurd h (by decide)

theorem digit_ne_plus {c : Char} (h : c.isDigit = true) : c ≠ '+' := by
  rintro rfl; exact absurd h (by decide)

theorem keep_of_digit {c : Char} (h : c.isDigit = true) : keepNumChar c = true := by
  simp [keepNumChar, h]

/-! ## `splitOnChar` lemmas -/

theorem splitOnChar_ne_nil (c : Char) (l : List Char) : splitOnChar c l ≠ [] := by
  cases l with
  | nil => simp [splitOnChar]
  | cons a t =>
    rw [splitOnChar]
    split
    · simp
    · split <;> simp

theorem splitOnChar_not_mem {c : Char} {l : List Char} (h : c ∉ l) :
    splitOnChar c l = [l] := by
  induction l with
  | nil => rfl
  | cons a t ih =>
    have h1 : c ∉ t := fun hm => h (List.mem_cons_of_mem a hm)
    have h2 : ¬ a = c := fun ha => h (ha ▸ List.mem_cons_self a t)
    rw [splitOnChar, if_neg h2, ih h1]

theorem splitOnChar_append_first {c : Char} {g : List Char} (h : c ∉ g)
    (rest : List Char) :
    splitOnChar c (g ++ c :: rest) = g :: splitOnChar c rest := by
  induction g with
  | nil => simp [splitOnChar]
  | cons a t ih =>
    have h1 : c ∉ t := fun hm => h (List.mem_cons_of_mem a hm)
    have h2 : ¬ a = c := fun ha => h (ha ▸ List.mem_cons_self a t)
    rw [List.cons_append, splitOnChar, if_neg h2, ih h1]

/-! ## The separator-swap comparison (testable property §8 of the spec) -/

/-- Swap `.` and `,` in a character (the "US-equivalent" transcription). -/
def sepSwapChar (c : Char) : Char :=
  if c = '.' then ',' else if c = ',' then '.' else c

/-- The US-equivalent of a numeric string: every `.` becomes `,` and vice
versa. -/
def sepSwap (s : String) : String := ⟨s.data.map sepSwapChar⟩

/-- The Brazilian money shape `/^\d{1,3}(\.\d{3})*,\d{2}$/`: a 1–3 digit
leading group, zero or more `.`-prefixed 3-digit groups, then a comma and two
decimal digits. -/
def isBRFormat (s : String) : Prop :=
  ∃ (g0 : List Char) (gs : List (List Char)) (c1 c2 : Char),
    (∀ c ∈ g0, c.isDigit = true) ∧ 1 ≤ g0.length ∧ g0.length ≤ 3 ∧
    (∀ g ∈ gs, (∀ c ∈ g, c.isDigit = true) ∧ g.length = 3) ∧
    c1.isDigit = true ∧ c2.isDigit = true ∧
    s.data = g0 ++ (gs.map (fun g => '.' :: g)).join ++ ',' :: [c1, c2]

theorem sepSwapChar_digit {c : Char} (h : c.isDigit = true) : sepSwapChar c = c := by
  rw [sepSwapChar, if_neg (digit_ne_dot h), if_neg (digit_ne_comma h)]

theorem dot_join_all {gs : List (List Char)}
    (h : ∀ g ∈ gs, ∀ c ∈ g, c.isDigit = true) :
    ∀ c ∈ (gs.map (fun g => '.' :: g)).join, c.isDigit = true ∨ c = '.' := by
  intro c hc
  rw [List.mem_join] at hc
  obtain ⟨l, hl, hcl⟩ := hc
  rw [List.mem_map] at hl
  obtain ⟨g, hg, rfl⟩ := hl
  rcases List.mem_cons.mp hcl with rfl | hcg
  · right; rfl
  · left; exact h g hg c hcg

theorem comma_join_all {gs : List (List Char)}
    (h : ∀ g ∈ gs, ∀ c ∈ g, c.isDigit = true) :
    ∀ c ∈ (gs.map (fun g => ',' :: g)).join, c.isDigit = true ∨ c = ',' := by
  intro c hc
  rw [List.mem_join] at hc
  obtain ⟨l, hl, hcl⟩ := hc
  rw [List.mem_map] at hl
  obtain ⟨g, hg, rfl⟩ := hl
  rcases List.mem_cons.mp hcl with rfl | hcg
  · right; rfl
  · left; exact h g hg c hcg

theorem dot_join_filter {gs : List (List Char)}
    (h : ∀ g ∈ gs, ∀ c ∈ g, c.isDigit = true) :
    ((gs.map (fun g => '.' :: g)).join).filter (· != '.') = gs.join := by
  induction gs with
  | nil => rfl
  | cons g t ih =>
    simp only [List.map_cons, List.join_cons, List.filter_append, List.filter_cons]
    have : (('.' : Char) != '.') = false := by decide
    rw [this]
    simp only [Bool.false_eq_true, if_false]
    rw [filter_eq_self_of_all (fun c hc => by
        simp only [bne_iff_ne, ne_eq, decide_eq_true_eq]
        exact digit_ne_dot (h g (List.mem_cons_self g t) c hc)),
      ih (fun g' hg' => h g' (List.mem_cons_of_mem g hg'))]

theorem comma_join_filter {gs : List (List Char)}
    (h : ∀ g ∈ gs, ∀ c ∈ g, c.isDigit = true) :
    ((gs.map (fun g => ',' :: g)).join).filter (· != ',') = gs.join := by
  induction gs with
  | nil => rfl
  | cons g t ih =>
    simp only [List.map_cons, List.join_cons, List.filter_append, List.filter_cons]
    have : ((',' : Char) != ',') = false := by decide
    rw [this]
    simp only [Bool.false_eq_true, if_false]
    rw [filter_eq_self_of_all (fun c hc => by
        simp only [bne_iff_ne, ne_eq, decide_eq_true_eq]
        exact digit_ne_comma (h g (List.mem_cons_self g t) c hc)),
      ih (fun g' hg' => h g' (List.mem_cons_of_mem g hg'))]

theorem dot_join_map_swap {gs : List (List Char)}
    (h : ∀ g ∈ gs, ∀ c ∈ g, c.isDigit = true) :
    ((gs.map (fun g => '.' :: g)).join).map sepSwapChar
      = (gs.map (fun g => ',' :: g)).join := by
  induction gs with
  | nil => rfl
  | cons g t ih =>
    simp only [List.map_cons, List.join_cons, List.map_append]
    rw [ih (fun g' hg' => h g' (List.mem_cons_of_mem g hg'))]
    congr 1
    show sepSwapChar '.' :: g.map sepSwapChar = ',' :: g
    rw [show sepSwapChar '.' = ',' from rfl,
      List.map_congr_left (fun c hc => sepSwapChar_digit (h g (List.mem_cons_self g t) c hc))]
    simp

/-! ## Claim C5: Brazilian-format strings vs their US-equivalents -/

theorem trim_filter_id {l : List Char}
    (h : ∀ c ∈ l, c.isDigit = true ∨ c = '.' ∨ c = ',') :
    (trimChars l).filter keepNumChar = l := by
  rw [trimChars_eq_self, filter_eq_self_of_all]
  · intro c hc
    rcases h c hc with hd | rfl | rfl
    · exact keep_of_digit hd
    · rfl
    · rfl
  · intro c hc
    rcases h c hc with hd | rfl | rfl
    · exact not_ws_of_digit hd
    · rfl
    · rfl

theorem filter_dot_digits {l : List Char} (h : ∀ c ∈ l, c.isDigit = true) :
    l.filter (· != '.') = l :=
  filter_eq_self_of_all (fun c hc => by
    simp only [bne_iff_ne, ne_eq, decide_eq_true_eq]
    exact digit_ne_dot (h c hc))

theorem filter_comma_digits {l : List Char} (h : ∀ c ∈ l, c.isDigit = true) :
    l.filter (· != ',') = l :=
  filter_eq_self_of_all (fun c hc => by
    simp only [bne_iff_ne, ne_eq, decide_eq_true_eq]
    exact digit_ne_comma (h c hc))

/-- C5: for every string in the Brazilian money shape
`/^\d{1,3}(\.\d{3})*,\d{2}$/`, `cleanNumber` yields the same number as it
yields on the US-equivalent string with the separators swapped — both
branches reduce the input to the identical `parseFloat` argument
`digits.digits`. -/
theorem cleanNumber_brFormat (s : String) (h : isBRFormat s) :
    cleanNumber (.str s) = cleanNumber (.str (sepSwap s)) := by
  classical
  obtain ⟨g0, gs, c1, c2, hg0, hg0len, _hg0len3, hgs, hc1, hc2, hdata⟩ := h
  have hgsd : ∀ g ∈ gs, ∀ c ∈ g, c.isDigit = true := fun g hg => (hgs g hg).1
  set J : List Char := (gs.map (fun g => '.' :: g)).join with hJdef
  set Jc : List Char := (gs.map (fun g => ',' :: g)).join with hJcdef
  have hJ : ∀ c ∈ J, c.isDigit = true ∨ c = '.' := dot_join_all hgsd
  have hJc : ∀ c ∈ Jc, c.isDigit = true ∨ c = ',' := comma_join_all hgsd
  -- the swapped string
  have hswap : (sepSwap s).data = g0 ++ Jc ++ '.' :: [c1, c2] := by
    show s.data.map sepSwapChar = _
    rw [hdata]
    simp only [List.map_append, List.map_cons]
    rw [List.map_congr_left (fun c hc => sepSwapChar_digit (hg0 c hc)),
      dot_join_map_swap hgsd,
      show sepSwapChar ',' = '.' from rfl,
      sepSwapChar_digit hc1, sepSwapChar_digit hc2]
    simp
  -- trim and character filter leave both strings unchanged
  have hclean0 : (trimChars s.data).filter keepNumChar = s.data := by
    apply trim_filter_id
    rw [hdata]
    intro c hc
    rcases List.mem_append.mp hc with hc | hc
    · rcases List.mem_append.mp hc with hc | hc
      · exact Or.inl (hg0 c hc)
      · rcases hJ c hc with hd | rfl
        · exact Or.inl hd
        · exact Or.inr (Or.inl rfl)
    · rcases List.mem_cons.mp hc with rfl | hc
      · exact Or.inr (Or.inr rfl)
      · rcases List.mem_cons.mp hc with rfl | hc
        · exact Or.inl hc1
        · rcases List.mem_cons.mp hc with rfl | hc
          · exact Or.inl hc2
          · simp at hc
  have hclean0' : (trimChars (sepSwap s).data).filter keepNumChar = (sepSwap s).data := by
    apply trim_filter_id
    rw [hswap]
    intro c hc
    rcases List.mem_append.mp hc with hc | hc
    · rcases List.mem_append.mp hc with hc | hc
      · exact Or.inl (hg0 c hc)
      · rcases hJc c hc with hd | rfl
        · exact Or.inl hd
        · exact Or.inr (Or.inr rfl)
    · rcases List.mem_cons.mp hc with rfl | hc
      · exact Or.inr (Or.inl rfl)
      · rcases List.mem_cons.mp hc with rfl | hc
        · exact Or.inl hc1
        · rcases List.mem_cons.mp hc with rfl | hc
          · exact Or.inl hc2
          · simp at hc
  -- membership facts
  have hdot_g0 : '.' ∉ g0 := fun hm => digit_ne_dot (hg0 _ hm) rfl
  have hcomma_g0 : ',' ∉ g0 := fun hm => digit_ne_comma (hg0 _ hm) rfl
  have hdot_cents : '.' ∉ (',' :: [c1, c2] : List Char) := by
    intro hm
    rcases List.mem_cons.mp hm with hm | hm
    · exact absurd hm (by decide)
    · rcases List.mem_cons.mp hm with hm | hm
      · exact digit_ne_dot hc1 hm.symm
      · rcases List.mem_cons.mp hm with hm | hm
        · exact digit_ne_dot hc2 hm.symm
        · simp at hm
  have hcomma_swapcents : ',' ∉ ('.' :: [c1, c2] : List Char) := by
    intro hm
    rcases List.mem_cons.mp hm with hm | hm
    · exact absurd hm (by decide)
    · rcases List.mem_cons.mp hm with hm | hm
      · exact digit_ne_comma hc1 hm.symm
      · rcases List.mem_cons.mp hm with hm | hm
        · exact digit_ne_comma hc2 hm.symm
        · simp at hm
  have hcomma_J : ',' ∉ J := fun hm => by
    rcases hJ _ hm with hd | hd
    · exact digit_ne_comma hd rfl
    · exact absurd hd (by decide)
  have hdot_Jc : '.' ∉ Jc := fun hm => by
    rcases hJc _ hm with hd | hd
    · exact digit_ne_dot hd rfl
    · exact absurd hd (by decide)
  have hcomma_c1c2 : ',' ∉ ([c1, c2] : List Char) := by
    intro hm
    rcases List.mem_cons.mp hm with hm | hm
    · exact digit_ne_comma hc1 hm.symm
    · rcases List.mem_cons.mp hm with hm | hm
      · exact digit_ne_comma hc2 hm.symm
      · simp at hm
  have hdot_c1c2 : '.' ∉ ([c1, c2] : List Char) := by
    intro hm
    rcases List.mem_cons.mp hm with hm | hm
    · exact digit_ne_dot hc1 hm.symm
    · rcases List.mem_cons.mp hm with hm | hm
      · exact digit_ne_dot hc2 hm.symm
      · simp at hm
  -- index computations on the original string
  have hlc : lastIndexOf ',' s.data = ((g0 ++ J).length : ℤ) := by
    rw [hdata,
      lastIndexOf_append_right (g0 ++ J) (List.mem_cons_self ',' [c1, c2]),
      lastIndexOf, lastIndexOf_neg hcomma_c1c2]
    simp
  have hld' : lastIndexOf '.' (sepSwap s).data = ((g0 ++ Jc).length : ℤ) := by
    rw [hswap,
      lastIndexOf_append_right (g0 ++ Jc) (List.mem_cons_self '.' [c1, c2]),
      lastIndexOf, lastIndexOf_neg hdot_c1c2]
    simp
  rw [show cleanNumber (.str s)
      = (jsParseFloat (sepHeuristic ((trimChars s.data).filter keepNumChar))).getD 0 from rfl,
    show cleanNumber (.str (sepSwap s))
      = (jsParseFloat (sepHeuristic ((trimChars (sepSwap s).data).filter keepNumChar))).getD 0
      from rfl,
    hclean0, hclean0']
  rcases gs with _ | ⟨g, gs'⟩
  · -- no thousands groups: `123,45` vs `123.45`
    have hJnil : J = [] := rfl
    have hJcnil : Jc = [] := rfl
    have hld : lastIndexOf '.' s.data = -1 := by
      rw [hdata, hJnil, List.append_nil, lastIndexOf_append_left _ hdot_cents,
        lastIndexOf_neg hdot_g0]
    have hlc' : lastIndexOf ',' (sepSwap s).data = -1 := by
      rw [hswap, hJcnil, List.append_nil, lastIndexOf_append_left _ hcomma_swapcents,
        lastIndexOf_neg hcomma_g0]
    -- original: only-comma branch replaces the first (only) comma by a dot
    rw [show sepHeuristic s.data
        = if lastIndexOf '.' s.data ≠ -1 ∧ lastIndexOf ',' s.data ≠ -1 then
            if lastIndexOf ',' s.data > lastIndexOf '.' s.data then
              replaceFirst ',' '.' (s.data.filter (· != '.'))
            else s.data.filter (· != ',')
          else if lastIndexOf ',' s.data ≠ -1 then replaceFirst ',' '.' s.data
          else if lastIndexOf '.' s.data ≠ -1 then
            if 1 < (splitOnChar '.' s.data).length ∧
                (((splitOnChar '.' s.data).getLast?).getD []).length = 3 then
              s.data.filter (· != '.')
            else s.data
          else s.data from rfl,
      if_neg (by rw [hld]; simp),
      if_pos (by rw [hlc, hJnil]; simp)]
    -- swapped: dot-only branch, trailing group has length 2 ≠ 3, kept as-is
    rw [show sepHeuristic (sepSwap s).data
        = if lastIndexOf '.' (sepSwap s).data ≠ -1 ∧ lastIndexOf ',' (sepSwap s).data ≠ -1 then
            if lastIndexOf ',' (sepSwap s).data > lastIndexOf '.' (sepSwap s).data then
              replaceFirst ',' '.' ((sepSwap s).data.filter (· != '.'))
            else (sepSwap s).data.filter (· != ',')
          else if lastIndexOf ',' (sepSwap s).data ≠ -1 then
            replaceFirst ',' '.' (sepSwap s).data
          else if lastIndexOf '.' (sepSwap s).data ≠ -1 then
            if 1 < (splitOnChar '.' (sepSwap s).data).length ∧
                (((splitOnChar '.' (sepSwap s).data).getLast?).getD []).length = 3 then
              (sepSwap s).data.filter (· != '.')
            else (sepSwap s).data
          else (sepSwap s).data from rfl,
      if_neg (by rw [hlc']; simp),
      if_neg (by rw [hlc']; simp),
      if_pos (by rw [hld', hJcnil]; simp)]
    have hsplit : splitOnChar '.' (sepSwap s).data = [g0, [c1, c2]] := by
      rw [hswap, hJcnil, List.append_nil, splitOnChar_append_first hdot_g0,
        splitOnChar_not_mem hdot_c1c2]
    rw [if_neg (by rw [hsplit]; simp), hdata, hJnil, List.append_nil, hswap, hJcnil,
      List.append_nil, replaceFirst_append_left _ hcomma_g0]
    rfl
  · -- at least one dot group: both separators present on both sides
    have hdotJ : '.' ∈ J := by
      rw [hJdef]
      simp only [List.map_cons, List.join_cons, List.cons_append]
      exact List.mem_cons_self _ _
    have hcommaJc : ',' ∈ Jc := by
      rw [hJcdef]
      simp only [List.map_cons, List.join_cons, List.cons_append]
      exact List.mem_cons_self _ _
    have hld : lastIndexOf '.' s.data = lastIndexOf '.' (g0 ++ J) := by
      rw [hdata, lastIndexOf_append_left _ hdot_cents]
    have hldlt : lastIndexOf '.' (g0 ++ J) < ((g0 ++ J).length : ℤ) :=
      lastIndexOf_lt_length _ _
    have hldge : 0 ≤ lastIndexOf '.' (g0 ++ J) :=
      lastIndexOf_nonneg (List.mem_append_right g0 hdotJ)
    have hlc' : lastIndexOf ',' (sepSwap s).data = lastIndexOf ',' (g0 ++ Jc) := by
      rw [hswap, lastIndexOf_append_left _ hcomma_swapcents]
    have hlclt : lastIndexOf ',' (g0 ++ Jc) < ((g0 ++ Jc).length : ℤ) :=
      lastIndexOf_lt_length _ _
    have hlcge : 0 ≤ lastIndexOf ',' (g0 ++ Jc) :=
      lastIndexOf_nonneg (List.mem_append_right g0 hcommaJc)
    -- original: both present, comma later → strip dots, comma becomes dot
    rw [show sepHeuristic s.data
        = if lastIndexOf '.' s.data ≠ -1 ∧ lastIndexOf ',' s.data ≠ -1 then
            if lastIndexOf ',' s.data > lastIndexOf '.' s.data then
              replaceFirst ',' '.' (s.data.filter (· != '.'))
            else s.data.filter (· != ',')
          else if lastIndexOf ',' s.data ≠ -1 then replaceFirst ',' '.' s.data
          else if lastIndexOf '.' s.data ≠ -1 then
            if 1 < (splitOnChar '.' s.data).length ∧
                (((splitOnChar '.' s.data).getLast?).getD []).length = 3 then
              s.data.filter (· != '.')
            else s.data
          else s.data from rfl,
      if_pos ⟨by rw [hld]; omega, by rw [hlc]; omega⟩,
      if_pos (by rw [hlc, hld]; omega)]
    -- swapped: both present, dot later → strip commas
    rw [show sepHeuristic (sepSwap s).data
        = if lastIndexOf '.' (sepSwap s).data ≠ -1 ∧ lastIndexOf ',' (sepSwap s).data ≠ -1 then
            if lastIndexOf ',' (sepSwap s).data > lastIndexOf '.' (sepSwap s).data then
              replaceFirst ',' '.' ((sepSwap s).data.filter (· != '.'))
            else (sepSwap s).data.filter (· != ',')
          else if lastIndexOf ',' (sepSwap s).data ≠ -1 then
            replaceFirst ',' '.' (sepSwap s).data
          else if lastIndexOf '.' (sepSwap s).data ≠ -1 then
            if 1 < (splitOnChar '.' (sepSwap s).data).length ∧
                (((splitOnChar '.' (sepSwap s).data).getLast?).getD []).length = 3 then
              (sepSwap s).data.filter (· != '.')
            else (sepSwap s).data
          else (sepSwap s).data from rfl,
      if_pos ⟨by rw [hld']; omega, by rw [hlc']; omega⟩,
      if_neg (by rw [hlc', hld']; omega)]
    -- both sides reduce to `g0 ++ (g :: gs').join ++ '.' :: [c1, c2]`
    rw [hdata, hswap]
    simp only [List.filter_append]
    rw [filter_dot_digits hg0, filter_comma_digits hg0, dot_join_filter hgsd,
      comma_join_filter hgsd]
    rw [show (([',', c1, c2] : List Char).filter (· != '.')) = [',', c1, c2] from
      filter_eq_self_of_all (by
        intro c hc
        simp only [bne_iff_ne, ne_eq, decide_eq_true_eq]
        rcases List.mem_cons.mp hc with rfl | hc
        · decide
        · rcases List.mem_cons.mp hc with rfl | hc
          · exact digit_ne_dot hc1
          · rcases List.mem_cons.mp hc with rfl | hc
            · exact digit_ne_dot hc2
            · simp at hc)]
    rw [show ((['.', c1, c2] : List Char).filter (· != ',')) = ['.', c1, c2] from
      filter_eq_self_of_all (by
        intro c hc
        simp only [bne_iff_ne, ne_eq, decide_eq_true_eq]
        rcases List.mem_cons.mp hc with rfl | hc
        · decide
        · rcases List.mem_cons.mp hc with rfl | hc
          · exact digit_ne_comma hc1
          · rcases List.mem_cons.mp hc with rfl | hc
            · exact digit_ne_comma hc2
            · simp at hc)]
    rw [replaceFirst_append_left _ (by
      intro hm
      rcases List.mem_append.mp hm with hm | hm
      · exact hcomma_g0 hm
      · rw [List.mem_join] at hm
        obtain ⟨l', hl', hml'⟩ := hm
        exact digit_ne_comma (hgsd l' hl' _ hml') rfl)]
    rw [show replaceFirst ',' '.' ([',', c1, c2]) = ['.', c1, c2] by simp [replaceFirst]]

/-! ## Claim C6: dot-only strings -/

theorem exists_first_dot {l : List Char} (h : '.' ∈ l) :
    ∃ p0 rest, l = p0 ++ '.' :: rest ∧ ∀ c ∈ p0, c ≠ '.' := by
  induction l with
  | nil => simp at h
  | cons a t ih =>
    by_cases ha : a = '.'
    · exact ⟨[], t, by rw [ha]; rfl, by simp⟩
    · have hm : '.' ∈ t := by
        rcases List.mem_cons.mp h with hm | hm
        · exact absurd hm.symm ha
        · exact hm
      obtain ⟨p0, rest, heq, hnd⟩ := ih hm
      exact ⟨a :: p0, rest, by rw [heq]; rfl, by
        intro c hc
        rcases List.mem_cons.mp hc with rfl | hc
        · exact ha
        · exact hnd c hc⟩

theorem jsParseFloat_digits {l : List Char} (h : ∀ c ∈ l, c.isDigit = true) :
    (jsParseFloat l).getD 0 = (digitsVal l : ℚ) := by
  cases l with
  | nil => rfl
  | cons a t =>
    have ha := h a (List.mem_cons_self a t)
    have h1 : ¬ a = '-' := digit_ne_dash ha
    have h2 : ¬ a = '+' := digit_ne_plus ha
    have htw : (a :: t).takeWhile Char.isDigit = a :: t := by
      rw [show a :: t = (a :: t) ++ [] by simp, takeWhile_append_all _ h]
      simp
    have hdw : (a :: t).dropWhile Char.isDigit = [] := by
      rw [show a :: t = (a :: t) ++ [] by simp, dropWhile_append_all _ h]
      simp
    simp only [jsParseFloat, List.head?_cons, Option.some_inj]
    rw [if_neg h1, if_neg (show ¬ (a = '-' ∨ a = '+') by tauto), htw, hdw]
    rw [if_neg (show ¬ (([] : List Char).head? = some '.') by simp)]
    rw [if_neg (by simp)]
    simp [digitsVal]

/-- Strings whose characters are decimal digits and `.`, with at least one
`.` — "`.` as the only separator, no comma". -/
def isDotOnly (s : String) : Prop :=
  (∀ c ∈ s.data, c.isDigit = true ∨ c = '.') ∧ '.' ∈ s.data

/-- The value the claim's words assign to a dot-only string when the *last*
`.` is read as the decimal mark: all earlier groups concatenated form the
integer part, the trailing group the fractional part.  (Spec-side companion
definition for comparison; the code itself does not compute this.) -/
def specLastDotValue (s : String) : ℚ :=
  (digitsVal (((splitOnChar '.' s.data).dropLast).join) : ℚ)
    + (digitsVal (((splitOnChar '.' s.data).getLast?).getD []) : ℚ)
      / 10 ^ (((splitOnChar '.' s.data).getLast?).getD []).length

theorem takeWhile_all_eq_self {p : Char → Bool} {l : List Char}
    (h : ∀ c ∈ l, p c = true) : l.takeWhile p = l := by
  rw [show l = l ++ [] by simp, takeWhile_append_all _ h]
  simp

theorem dropWhile_all_eq_nil {p : Char → Bool} {l : List Char}
    (h : ∀ c ∈ l, p c = true) : l.dropWhile p = [] := by
  rw [show l = l ++ [] by simp, dropWhile_append_all _ h]
  simp

theorem jsParseFloat_first_dot {p0 rest : List Char}
    (hp0 : ∀ c ∈ p0, c.isDigit = true)
    (_hrest : ∀ c ∈ rest, c.isDigit = true ∨ c = '.') :
    (jsParseFloat (p0 ++ '.' :: rest)).getD 0
      = (digitsVal p0 : ℚ)
        + digitsVal (rest.takeWhile Char.isDigit)
          / 10 ^ (rest.takeWhile Char.isDigit).length := by
  have htw : (p0 ++ '.' :: rest).takeWhile Char.isDigit = p0 := by
    rw [takeWhile_append_all _ hp0, takeWhile_cons_false _ (by decide)]
    simp
  have hdw : (p0 ++ '.' :: rest).dropWhile Char.isDigit = '.' :: rest := by
    rw [dropWhile_append_all _ hp0, dropWhile_cons_false _ (by decide)]
  obtain ⟨c0, hc0, hc0p⟩ :
      ∃ c0, (p0 ++ '.' :: rest).head? = some c0 ∧ (c0.isDigit = true ∨ c0 = '.') := by
    cases p0 with
    | nil => exact ⟨'.', rfl, Or.inr rfl⟩
    | cons d p0' => exact ⟨d, rfl, Or.inl (hp0 d (List.mem_cons_self d p0'))⟩
  have h1 : ¬ ((p0 ++ '.' :: rest).head? = some '-') := by
    rw [hc0]
    simp only [Option.some_inj]
    rcases hc0p with hd | rfl
    · exact digit_ne_dash hd
    · decide
  have h2 : ¬ ((p0 ++ '.' :: rest).head? = some '+') := by
    rw [hc0]
    simp only [Option.some_inj]
    rcases hc0p with hd | rfl
    · exact digit_ne_plus hd
    · decide
  simp only [jsParseFloat]
  rw [if_neg h1,
    if_neg (show ¬ ((p0 ++ '.' :: rest).head? = some '-'
      ∨ (p0 ++ '.' :: rest).head? = some '+') by tauto),
    htw, hdw]
  rw [show ('.' :: rest).head? = some '.' from rfl, if_pos rfl]
  rw [show ('.' :: rest).tail = rest from rfl]
  by_cases h0 : p0 = [] ∧ rest.takeWhile Char.isDigit = []
  · rw [if_pos h0, h0.1, h0.2]
    simp [digitsVal]
  · rw [if_neg h0]
    simp

theorem splitOnChar_head_takeWhile {rest : List Char}
    (h : ∀ c ∈ rest, c.isDigit = true ∨ c = '.') :
    ((splitOnChar '.' rest).head?).getD [] = rest.takeWhile Char.isDigit := by
  by_cases hm : '.' ∈ rest
  · obtain ⟨p1, r2, rfl, hnd⟩ := exists_first_dot hm
    have hp1 : ∀ c ∈ p1, c.isDigit = true := by
      intro c hc
      rcases h c (List.mem_append_left _ hc) with hd | hd
      · exact hd
      · exact absurd hd (hnd _ hc)
    rw [splitOnChar_append_first (fun hc => hnd _ hc rfl),
      takeWhile_append_all _ hp1, takeWhile_cons_false _ (by decide)]
    simp
  · have hd : ∀ c ∈ rest, c.isDigit = true := by
      intro c hc
      rcases h c hc with h' | h'
      · exact h'
      · exact absurd (h' ▸ hc) hm
    rw [splitOnChar_not_mem hm, takeWhile_all_eq_self hd]
    rfl

theorem sepHeuristic_eq (l : List Char) :
    sepHeuristic l =
      if lastIndexOf '.' l ≠ -1 ∧ lastIndexOf ',' l ≠ -1 then
        if lastIndexOf ',' l > lastIndexOf '.' l then
          replaceFirst ',' '.' (l.filter (· != '.'))
        else l.filter (· != ',')
      else if lastIndexOf ',' l ≠ -1 then replaceFirst ',' '.' l
      else if lastIndexOf '.' l ≠ -1 then
        if 1 < (splitOnChar '.' l).length ∧
            (((splitOnChar '.' l).getLast?).getD []).length = 3 then
          l.filter (· != '.')
        else l
      else l := rfl

/-- Amended C6: on a digits-and-dots string containing at least one dot,
`cleanNumber` strips every `.` and returns the concatenated digits exactly
when the group after the last `.` has exactly 3 digits; otherwise it parses
with the *first* `.` as the decimal mark (`parseFloat` prefix semantics),
ignoring everything from a second `.` on — not the last `.` as the claim
stated (for single-dot strings the two coincide). -/
theorem cleanNumber_dotOnly (s : String) (h : isDotOnly s) :
    cleanNumber (.str s) =
      if (((splitOnChar '.' s.data).getLast?).getD []).length = 3 then
        (digitsVal (s.data.filter (· != '.')) : ℚ)
      else
        (digitsVal (((splitOnChar '.' s.data).head?).getD []) : ℚ)
          + digitsVal (((splitOnChar '.' s.data).tail.head?).getD [])
            / 10 ^ (((splitOnChar '.' s.data).tail.head?).getD []).length := by
  obtain ⟨hall, hmem⟩ := h
  obtain ⟨p0, rest, hdec, hnd⟩ := exists_first_dot hmem
  have hp0 : ∀ c ∈ p0, c.isDigit = true := by
    intro c hc
    rcases hall c (hdec ▸ List.mem_append_left _ hc) with hd | hd
    · exact hd
    · exact absurd hd (hnd c hc)
  have hrest : ∀ c ∈ rest, c.isDigit = true ∨ c = '.' := by
    intro c hc
    exact hall c (hdec ▸ List.mem_append_right _ (List.mem_cons_of_mem _ hc))
  have hcomma : ',' ∉ s.data := by
    intro hm
    rcases hall ',' hm with hd | hd
    · exact digit_ne_comma hd rfl
    · exact absurd hd (by decide)
  have hclean0 : (trimChars s.data).filter keepNumChar = s.data :=
    trim_filter_id (fun c hc => (hall c hc).imp id Or.inl)
  have hld : 0 ≤ lastIndexOf '.' s.data := lastIndexOf_nonneg hmem
  have hsplit : splitOnChar '.' s.data = p0 :: splitOnChar '.' rest := by
    rw [hdec, splitOnChar_append_first (fun hc => hnd '.' hc rfl)]
  have hlen : 1 < (splitOnChar '.' s.data).length := by
    rw [hsplit]
    cases hsr : splitOnChar '.' rest with
    | nil => exact absurd hsr (splitOnChar_ne_nil _ _)
    | cons g gs => simp
  rw [show cleanNumber (.str s)
      = (jsParseFloat (sepHeuristic ((trimChars s.data).filter keepNumChar))).getD 0 from rfl,
    hclean0, sepHeuristic_eq]
  rw [if_neg (show ¬ (lastIndexOf '.' s.data ≠ -1 ∧ lastIndexOf ',' s.data ≠ -1) by
      rw [lastIndexOf_neg hcomma]; simp),
    if_neg (show ¬ (lastIndexOf ',' s.data ≠ -1) by rw [lastIndexOf_neg hcomma]; simp),
    if_pos (show lastIndexOf '.' s.data ≠ -1 by omega)]
  by_cases h3 : (((splitOnChar '.' s.data).getLast?).getD []).length = 3
  · rw [if_pos ⟨hlen, h3⟩, if_pos h3]
    exact jsParseFloat_digits (fun c hc => by
      have hcf := List.mem_filter.mp hc
      rcases hall c hcf.1 with hd | hd
      · exact hd
      · subst hd; exact absurd hcf.2 (by decide))
  · rw [if_neg (fun hc => h3 hc.2), if_neg h3]
    rw [hsplit,
      show (p0 :: splitOnChar '.' rest).head?.getD [] = p0 from rfl,
      show (p0 :: splitOnChar '.' rest).tail = splitOnChar '.' rest from rfl,
      splitOnChar_head_takeWhile hrest, hdec]
    exact jsParseFloat_first_dot hp0 hrest

theorem cleanNumber_brFormat_witness :
    isBRFormat "1.234,56"
      ∧ cleanNumber (.str "1.234,56") = cleanNumber (.str (sepSwap "1.234,56")) :=
  ⟨⟨['1'], [['2', '3', '4']], '5', '6', by decide, by decide, by decide, by decide,
     by decide, by decide, by decide⟩,
   cleanNumber_brFormat "1.234,56"
     ⟨['1'], [['2', '3', '4']], '5', '6', by decide, by decide, by decide, by decide,
      by decide, by decide, by decide⟩⟩

/-- C6 counterexample: `"1.2.34"` contains `.` as its only separator and its
trailing group has 2 ≠ 3 digits, so per the claim the *last* `.` should be
the decimal mark, giving 12.34; the code instead `parseFloat`s the unchanged
string, which stops at the second `.` and yields 1.2. -/
theorem cleanNumber_dotOnly_counterexample :
    isDotOnly "1.2.34"
      ∧ cleanNumber (.str "1.2.34") = 6 / 5
      ∧ specLastDotValue "1.2.34" = 617 / 50
      ∧ (6 / 5 : ℚ) ≠ 617 / 50 := by
  refine ⟨⟨by decide, by decide⟩, ?_, ?_, by norm_num⟩
  · show (jsParseFloat (sepHeuristic
        ((trimChars ("1.2.34" : String).data).filter keepNumChar))).getD 0 = 6 / 5
    rw [show sepHeuristic ((trimChars ("1.2.34" : String).data).filter keepNumChar)
        = ['1'] ++ '.' :: ['2', '.', '3', '4'] by decide]
    rw [jsParseFloat_first_dot (by decide) (by decide)]
    rw [show (['2', '.', '3', '4'] : List Char).takeWhile Char.isDigit = ['2'] by decide,
      show digitsVal ['1'] = 1 from by decide, show digitsVal ['2'] = 2 from by decide,
      show (['2'] : List Char).length = 1 from rfl]
    norm_num
  · unfold specLastDotValue
    rw [show ((splitOnChar '.' ("1.2.34" : String).data).dropLast).join = ['1', '2'] by decide,
      show ((splitOnChar '.' ("1.2.34" : String).data).getLast?).getD [] = ['3', '4'] by decide,
      show digitsVal ['1', '2'] = 12 from by decide,
      show digitsVal ['3', '4'] = 34 from by decide,
      show (['3', '4'] : List Char).length = 2 from rfl]
    norm_num

theorem cleanNumber_dotOnly_witness :
    isDotOnly "1.500"
      ∧ cleanNumber (.str "1.500") =
        (if (((splitOnChar '.' ("1.500" : String).data).getLast?).getD []).length = 3 then
          (digitsVal (("1.500" : String).data.filter (· != '.')) : ℚ)
        else
          (digitsVal (((splitOnChar '.' ("1.500" : String).data).head?).getD []) : ℚ)
            + digitsVal (((splitOnChar '.' ("1.500" : String).data).tail.head?).getD [])
              / 10 ^ (((splitOnChar '.' ("1.500" : String).data).tail.head?).getD []).length) :=
  ⟨⟨by decide, by decide⟩, cleanNumber_dotOnly "1.500" ⟨by decide, by decide⟩⟩

/-! ## `formatDate` (dataProcessing lines 40–100)

The three text patterns are the hand-compiled equivalents of the source
regexes; `civilFromDays` / `toISODateString` model the JS runtime's
`new Date(ms)` UTC calendar decomposition (proleptic Gregorian, days since
1970-01-01) and `toISOString().split('T')[0]` (4-digit years, or the
expanded `±YYYYYY` form outside 0–9999). -/

/-- Portuguese month-abbreviation table (`ptMonths`), 0-based like
`Date.getMonth`. -/
def ptMonth (l : List Char) : Option ℕ :=
  if l = ['j', 'a', 'n'] then some 0
  else if l = ['f', 'e', 'v'] then some 1
  else if l = ['m', 'a', 'r'] then some 2
  else if l = ['a', 'b', 'r'] then some 3
  else if l = ['m', 'a', 'i'] then some 4
  else if l = ['j', 'u', 'n'] then some 5
  else if l = ['j', 'u', 'l'] then some 6
  else if l = ['a', 'g', 'o'] then some 7
  else if l = ['s', 'e', 't'] then some 8
  else if l = ['o', 'u', 't'] then some 9
  else if l = ['n', 'o', 'v'] then some 10
  else if l = ['d', 'e', 'z'] then some 11
  else none

/-- `v.match(/^(\d{1,2})\/(\d{1,2})\/(\d{2,4})/)` (not anchored at the end):
returns the day, month and year capture groups.  The quantifiers are
deterministic here because a digit can never match the following `/`. -/
def brMatch (l : List Char) : Option (List Char × List Char × List Char) :=
  let d1 := l.takeWhile Char.isDigit
  let r1 := l.dropWhile Char.isDigit
  if d1.length = 0 ∨ 2 < d1.length then none
  else if r1.head? = some '/' then
    let d2 := r1.tail.takeWhile Char.isDigit
    let r3 := r1.tail.dropWhile Char.isDigit
    if d2.length = 0 ∨ 2 < d2.length then none
    else if r3.head? = some '/' then
      let d3 := (r3.tail.takeWhile Char.isDigit).take 4
      if d3.length < 2 then none else some (d1, d2, d3)
    else none
  else none

def isLowerAlpha (c : Char) : Bool := 'a' ≤ c && c ≤ 'z'

/-- `[\s\-\/]` -/
def isSepChar (c : Char) : Bool := isJsWS c || c = '-' || c = '/'

/-- `lower.match(/^([a-z]{3})[\s\-\/](\d{2,4})$/)`: three lower-case letters,
one separator, then 2–4 digits to the end. -/
def myMatch (l : List Char) : Option (List Char × List Char) :=
  match l with
  | c1 :: c2 :: c3 :: c4 :: rest =>
    if isLowerAlpha c1 && isLowerAlpha c2 && isLowerAlpha c3 && isSepChar c4
        && rest.all Char.isDigit && decide (2 ≤ rest.length)
        && decide (rest.length ≤ 4) then
      some ([c1, c2, c3], rest)
    else none
  | _ => none

/-- Year-of-era, month (1–12) and day (1–31) from the day-of-era
`doe ∈ [0, 146096]` (the standard civil-from-days computation on one
400-year era). -/
def civilFromDoe (doe : ℕ) : ℕ × ℕ × ℕ :=
  let yoe := (doe - doe / 1460 + doe / 36524 - doe / 146096) / 365
  let doy := doe - (365 * yoe + yoe / 4 - yoe / 100)
  let mp := (5 * doy + 2) / 153
  let d := doy - (153 * mp + 2) / 5 + 1
  let m := if mp < 10 then mp + 3 else mp - 9
  (yoe, m, d)

/-- Proleptic-Gregorian (year, month, day) of a day number counted from
1970-01-01 (what `new Date(ms)` exposes through its UTC accessors).
`ℤ` division is Euclidean, which is floor division for the positive
divisors used here. -/
def civilFromDays (z : ℤ) : ℤ × ℕ × ℕ :=
  let z' := z + 719468
  let era := z' / 146097
  let c := civilFromDoe (z' % 146097).toNat
  (era * 400 + c.1 + (if c.2.1 ≤ 2 then 1 else 0), c.2.1, c.2.2)

/-- `Math.round`. -/
def jsRound (q : ℚ) : ℤ := ⌊q + 1 / 2⌋

/-- The date half of `toISOString().split('T')[0]`: 4-digit zero-padded year
for 0–9999, expanded `+YYYYYY` form above (negative years cannot reach the
emission sites, which all check `year ≥ 2000` first). -/
def toISODateString (y m d : ℕ) : List Char :=
  if y ≤ 9999 then pad4 y ++ '-' :: pad2 m ++ '-' :: pad2 d
  else '+' :: pad6 y ++ '-' :: pad2 m ++ '-' :: pad2 d

/-- The final `^\d{4}-\d{2}-\d{2}$` check of `formatDate` (lines 93–97):
on a match, reject years below 2000 and return the input unchanged. -/
def isoCheck (v : List Char) : String :=
  match v with
  | [a, b, c, d, s1, e, f, s2, g, h] =>
    if s1 = '-' ∧ s2 = '-' ∧ ([a, b, c, d, e, f, g, h].all Char.isDigit) = true then
      if digitsVal [a, b, c, d] < 2000 then "" else ⟨v⟩
    else ""
  | _ => ""

/-- `formatDate` (dataProcessing lines 46–100). -/
def formatDate : CellValue → String
  | .empty => ""
  | .date d =>
    if d.year < 2000 then ""
    else ⟨natDigits d.year.toNat ++ '-' :: pad2 (d.month + 1) ++ '-' :: pad2 d.day⟩
  | .num q =>
    if q < 36526 then ""
    else
      let ms : ℤ := jsRound ((q - 25569) * 86400000)
      if 8640000000000000 < ms ∨ ms < -8640000000000000 then ""
      else
        let c := civilFromDays (ms / 86400000)
        if c.1 < 2000 then "" else ⟨toISODateString c.1.toNat c.2.1 c.2.2⟩
  | .str s =>
    match brMatch (trimChars s.data) with
    | some (d1, d2, d3) =>
      let year0 := digitsVal d3
      let year := if year0 < 100 then year0 + 2000 else year0
      if year < 2000 then ""
      else ⟨natDigits year ++ '-' :: pad2list d2 ++ '-' :: pad2list d1⟩
    | none =>
      match myMatch (lowerChars (trimChars s.data)) with
      | some (mon, ys) =>
        match ptMonth mon with
        | some mIdx =>
          let year0 := digitsVal ys
          let year := if year0 < 100 then year0 + 2000 else year0
          if year < 2000 then ""
          else ⟨natDigits year ++ '-' :: pad2 (mIdx + 1) ++ '-' :: ['0', '1']⟩
        | none => isoCheck (trimChars s.data)
      | none => isoCheck (trimChars s.data)

/-! ## Shape facts for `formatDate` outputs -/

theorem digit_toNat_bounds {c : Char} (h : c.isDigit = true) :
    48 ≤ c.toNat ∧ c.toNat ≤ 57 := by
  rw [Char.isDigit] at h
  simp only [Bool.and_eq_true, decide_eq_true_eq] at h
  exact h

theorem digitVal_le_nine {c : Char} (h : c.isDigit = true) : digitVal c ≤ 9 := by
  have := digit_toNat_bounds h
  unfold digitVal
  omega

theorem digitsVal_lt_pow {l : List Char} (h : ∀ c ∈ l, c.isDigit = true) :
    digitsVal l < 10 ^ l.length := by
  induction l using List.reverseRecOn with
  | nil => simp [digitsVal]
  | append_singleton l c ih =>
    rw [digitsVal_append]
    have hc : digitVal c ≤ 9 := digitVal_le_nine (h c (by simp))
    have hl := ih (fun c' hc' => h c' (List.mem_append_left _ hc'))
    simp only [List.length_append, List.length_singleton]
    rw [pow_succ]
    omega

theorem natDigits_length_ge {k n : ℕ} (h : 10 ^ k ≤ n) :
    k + 1 ≤ (natDigits n).length := by
  induction k generalizing n with
  | zero =>
    cases hn : natDigits n with
    | nil => exact absurd hn (natDigits_ne_nil n)
    | cons a t => simp
  | succ k ih =>
    have h10 : ¬ n < 10 := by
      have h1 : 10 ≤ 10 ^ (k + 1) := by
        calc (10 : ℕ) = 10 ^ 1 := (pow_one 10).symm
        _ ≤ 10 ^ (k + 1) := Nat.pow_le_pow_right (by omega) (by omega)
      omega
    rw [natDigits_eq]
    simp only [h10, if_false, List.length_append, List.length_singleton]
    have hdiv : 10 ^ k ≤ n / 10 := by
      rw [Nat.le_div_iff_mul_le (by omega)]
      calc 10 ^ k * 10 = 10 ^ (k + 1) := by ring
      _ ≤ n := h
    have := ih hdiv
    omega

theorem pad2list_length {l : List Char} (h : l.length ≤ 2) :
    (pad2list l).length = 2 := by
  unfold pad2list
  simp only [List.length_append, List.length_replicate]
  omega

theorem pad2list_all_digit {l : List Char} (h : ∀ c ∈ l, c.isDigit = true) :
    ∀ c ∈ pad2list l, c.isDigit = true := by
  intro c hc
  rcases List.mem_append.mp hc with hc | hc
  · rw [List.eq_of_mem_replicate hc]; rfl
  · exact h c hc

theorem civilFromDoe_bounds {doe : ℕ} (h : doe ≤ 146096) :
    1 ≤ (civilFromDoe doe).2.1 ∧ (civilFromDoe doe).2.1 ≤ 12
      ∧ 1 ≤ (civilFromDoe doe).2.2 ∧ (civilFromDoe doe).2.2 ≤ 31 := by
  simp only [civilFromDoe]
  split_ifs <;> omega

theorem civilFromDays_bounds (z : ℤ) :
    1 ≤ (civilFromDays z).2.1 ∧ (civilFromDays z).2.1 ≤ 12
      ∧ 1 ≤ (civilFromDays z).2.2 ∧ (civilFromDays z).2.2 ≤ 31 := by
  have hmod : 0 ≤ (z + 719468) % 146097 ∧ (z + 719468) % 146097 < 146097 :=
    ⟨Int.emod_nonneg _ (by omega), Int.emod_lt_of_pos _ (by omega)⟩
  have hdoe : ((z + 719468) % 146097).toNat ≤ 146096 := by omega
  have hb := civilFromDoe_bounds hdoe
  simp only [civilFromDays]
  exact hb

theorem ptMonth_le {l : List Char} {m : ℕ} (h : ptMonth l = some m) : m ≤ 11 := by
  unfold ptMonth at h
  by_cases h1 : l = ['j', 'a', 'n']
  · rw [if_pos h1] at h; cases h; omega
  rw [if_neg h1] at h
  by_cases h2 : l = ['f', 'e', 'v']
  · rw [if_pos h2] at h; cases h; omega
  rw [if_neg h2] at h
  by_cases h3 : l = ['m', 'a', 'r']
  · rw [if_pos h3] at h; cases h; omega
  rw [if_neg h3] at h
  by_cases h4 : l = ['a', 'b', 'r']
  · rw [if_pos h4] at h; cases h; omega
  rw [if_neg h4] at h
  by_cases h5 : l = ['m', 'a', 'i']
  · rw [if_pos h5] at h; cases h; omega
  rw [if_neg h5] at h
  by_cases h6 : l = ['j', 'u', 'n']
  · rw [if_pos h6] at h; cases h; omega
  rw [if_neg h6] at h
  by_cases h7 : l = ['j', 'u', 'l']
  · rw [if_pos h7] at h; cases h; omega
  rw [if_neg h7] at h
  by_cases h8 : l = ['a', 'g', 'o']
  · rw [if_pos h8] at h; cases h; omega
  rw [if_neg h8] at h
  by_cases h9 : l = ['s', 'e', 't']
  · rw [if_pos h9] at h; cases h; omega
  rw [if_neg h9] at h
  by_cases h10 : l = ['o', 'u', 't']
  · rw [if_pos h10] at h; cases h; omega
  rw [if_neg h10] at h
  by_cases h11 : l = ['n', 'o', 'v']
  · rw [if_pos h11] at h; cases h; omega
  rw [if_neg h11] at h
  by_cases h12 : l = ['d', 'e', 'z']
  · rw [if_pos h12] at h; cases h; omega
  rw [if_neg h12] at h
  exact Option.noConfusion h

theorem brMatch_spec {l d1 d2 d3 : List Char}
    (h : brMatch l = some (d1, d2, d3)) :
    (∀ c ∈ d1, c.isDigit = true) ∧ 1 ≤ d1.length ∧ d1.length ≤ 2
      ∧ (∀ c ∈ d2, c.isDigit = true) ∧ 1 ≤ d2.length ∧ d2.length ≤ 2
      ∧ (∀ c ∈ d3, c.isDigit = true) ∧ 2 ≤ d3.length ∧ d3.length ≤ 4 := by
  simp only [brMatch] at h
  by_cases h1 : (l.takeWhile Char.isDigit).length = 0 ∨ 2 < (l.takeWhile Char.isDigit).length
  · rw [if_pos h1] at h
    exact Option.noConfusion h
  rw [if_neg h1] at h
  by_cases h2 : (l.dropWhile Char.isDigit).head? = some '/'
  swap
  · rw [if_neg h2] at h
    exact Option.noConfusion h
  rw [if_pos h2] at h
  by_cases h3 : ((l.dropWhile Char.isDigit).tail.takeWhile Char.isDigit).length = 0
      ∨ 2 < ((l.dropWhile Char.isDigit).tail.takeWhile Char.isDigit).length
  · rw [if_pos h3] at h
    exact Option.noConfusion h
  rw [if_neg h3] at h
  by_cases h4 : ((l.dropWhile Char.isDigit).tail.dropWhile Char.isDigit).head? = some '/'
  swap
  · rw [if_neg h4] at h
    exact Option.noConfusion h
  rw [if_pos h4] at h
  by_cases h5 : ((((l.dropWhile Char.isDigit).tail.dropWhile Char.isDigit).tail.takeWhile
      Char.isDigit).take 4).length < 2
  · rw [if_pos h5] at h
    exact Option.noConfusion h
  rw [if_neg h5] at h
  rw [Option.some.injEq, Prod.mk.injEq, Prod.mk.injEq] at h
  obtain ⟨rfl, rfl, rfl⟩ := h
  refine ⟨fun c hc => List.mem_takeWhile_imp hc, by omega, by omega,
    fun c hc => List.mem_takeWhile_imp hc, by omega, by omega,
    fun c hc => List.mem_takeWhile_imp (List.mem_of_mem_take hc), by omega,
    List.length_take_le 4 _⟩

theorem myMatch_spec {l mon ys : List Char} (h : myMatch l = some (mon, ys)) :
    (∀ c ∈ ys, c.isDigit = true) ∧ 2 ≤ ys.length ∧ ys.length ≤ 4 := by
  unfold myMatch at h
  split at h
  · split_ifs at h with hcond
    rw [Option.some.injEq, Prod.mk.injEq] at h
    obtain ⟨rfl, rfl⟩ := h
    simp only [Bool.and_eq_true, decide_eq_true_eq] at hcond
    exact ⟨fun c hc => List.all_eq_true.mp (by tauto) c hc, by tauto, by tauto⟩
  · exact Option.noConfusion h

/-- The shape every non-empty `formatDate` output has: an all-digit year
field with numeric value ≥ 2000 (optionally in the `+`-prefixed expanded
form the serial path produces for years above 9999), and two-digit month and
day fields — with no guarantee that month or day is calendar-valid. -/
def looseISO (s : String) : Prop :=
  ∃ (Y M D : List Char),
    (s.data = Y ++ '-' :: M ++ '-' :: D ∨ s.data = '+' :: (Y ++ '-' :: M ++ '-' :: D))
      ∧ (∀ c ∈ Y, c.isDigit = true) ∧ 4 ≤ Y.length ∧ 2000 ≤ digitsVal Y
      ∧ M.length = 2 ∧ (∀ c ∈ M, c.isDigit = true)
      ∧ D.length = 2 ∧ (∀ c ∈ D, c.isDigit = true)

theorem isoCheck_shape (v : List Char) : isoCheck v = "" ∨ looseISO (isoCheck v) := by
  unfold isoCheck
  split
  · next a b c d s1 e f s2 g h =>
    by_cases hcond : s1 = '-' ∧ s2 = '-' ∧ ([a, b, c, d, e, f, g, h].all Char.isDigit) = true
    · rw [if_pos hcond]
      obtain ⟨rfl, rfl, hall⟩ := hcond
      by_cases hy : digitsVal [a, b, c, d] < 2000
      · rw [if_pos hy]
        left
        rfl
      · rw [if_neg hy]
        right
        simp only [List.all_cons, List.all_nil, Bool.and_eq_true] at hall
        obtain ⟨ha, hb, hc, hd, he, hf, hg, hh, -⟩ := hall
        refine ⟨[a, b, c, d], [e, f], [g, h], Or.inl rfl, ?_, by simp, by omega, rfl, ?_,
          rfl, ?_⟩
        · intro x hx
          rcases List.mem_cons.mp hx with rfl | hx
          · exact ha
          rcases List.mem_cons.mp hx with rfl | hx
          · exact hb
          rcases List.mem_cons.mp hx with rfl | hx
          · exact hc
          rcases List.mem_cons.mp hx with rfl | hx
          · exact hd
          simp at hx
        · intro x hx
          rcases List.mem_cons.mp hx with rfl | hx
          · exact he
          rcases List.mem_cons.mp hx with rfl | hx
          · exact hf
          simp at hx
        · intro x hx
          rcases List.mem_cons.mp hx with rfl | hx
          · exact hg
          rcases List.mem_cons.mp hx with rfl | hx
          · exact hh
          simp at hx
    · rw [if_neg hcond]
      left
      rfl
  · left
    rfl

theorem formatDate_shape_aux (x : CellValue) :
    formatDate x = "" ∨ looseISO (formatDate x) := by
  cases x with
  | empty => left; rfl
  | date d =>
    by_cases hy : d.year < 2000
    · left
      simp only [formatDate, if_pos hy]
    · right
      simp only [formatDate, if_neg hy]
      have hy2 : 2000 ≤ d.year.toNat := by omega
      refine ⟨natDigits d.year.toNat, pad2 (d.month + 1), pad2 d.day, Or.inl rfl,
        natDigits_all_digit _, ?_, ?_, pad2_length (by have := d.month_lt; omega),
        pad2_all_digit _, pad2_length (by have := d.day_le; omega), pad2_all_digit _⟩
      · have : (10 : ℕ) ^ 3 ≤ d.year.toNat := by omega
        have := natDigits_length_ge this
        omega
      · rw [digitsVal_natDigits]
        omega
  | num q =>
    by_cases h1 : q < 36526
    · left
      simp only [formatDate, if_pos h1]
    simp only [formatDate, if_neg h1]
    by_cases h2 : 8640000000000000 < jsRound ((q - 25569) * 86400000)
        ∨ jsRound ((q - 25569) * 86400000) < -8640000000000000
    · left
      rw [if_pos h2]
    rw [if_neg h2]
    by_cases h3 : (civilFromDays (jsRound ((q - 25569) * 86400000) / 86400000)).1 < 2000
    · left
      rw [if_pos h3]
    rw [if_neg h3]
    right
    have hb := civilFromDays_bounds (jsRound ((q - 25569) * 86400000) / 86400000)
    have hy2 : 2000 ≤ (civilFromDays (jsRound ((q - 25569) * 86400000) / 86400000)).1.toNat := by
      omega
    unfold toISODateString
    by_cases h4 : (civilFromDays (jsRound ((q - 25569) * 86400000) / 86400000)).1.toNat ≤ 9999
    · rw [if_pos h4]
      exact ⟨pad4 _, pad2 _, pad2 _, Or.inl rfl, pad4_all_digit _, pad4_length_ge _,
        by rw [digitsVal_pad4]; omega, pad2_length (by omega), pad2_all_digit _,
        pad2_length (by omega), pad2_all_digit _⟩
    · rw [if_neg h4]
      exact ⟨pad6 _, pad2 _, pad2 _, Or.inr rfl, pad6_all_digit _, pad6_length_ge _,
        by rw [digitsVal_pad6]; omega, pad2_length (by omega), pad2_all_digit _,
        pad2_length (by omega), pad2_all_digit _⟩
  | str s =>
    cases hbr : brMatch (trimChars s.data) with
    | some t =>
      obtain ⟨d1, d2, d3⟩ := t
      obtain ⟨hd1, hd1l, hd1u, hd2, hd2l, hd2u, hd3, hd3l, hd3u⟩ := brMatch_spec hbr
      simp only [formatDate, hbr]
      have hy0 : digitsVal d3 < 10 ^ 4 := by
        calc digitsVal d3 < 10 ^ d3.length := digitsVal_lt_pow hd3
        _ ≤ 10 ^ 4 := Nat.pow_le_pow_right (by omega) hd3u
      by_cases h100 : digitsVal d3 < 100
      · rw [if_pos h100, if_neg (show ¬ digitsVal d3 + 2000 < 2000 by omega)]
        right
        refine ⟨natDigits (digitsVal d3 + 2000),
          pad2list d2, pad2list d1, Or.inl rfl, natDigits_all_digit _, ?_, ?_,
          pad2list_length hd2u, pad2list_all_digit hd2,
          pad2list_length hd1u, pad2list_all_digit hd1⟩
        · have := natDigits_length_ge (show (10 : ℕ) ^ 3 ≤ digitsVal d3 + 2000 by omega)
          omega
        · rw [digitsVal_natDigits]
          omega
      · rw [if_neg h100]
        by_cases hy : digitsVal d3 < 2000
        · left
          rw [if_pos hy]
        · right
          rw [if_neg hy]
          refine ⟨natDigits (digitsVal d3),
            pad2list d2, pad2list d1, Or.inl rfl, natDigits_all_digit _, ?_, ?_,
            pad2list_length hd2u, pad2list_all_digit hd2,
            pad2list_length hd1u, pad2list_all_digit hd1⟩
          · have := natDigits_length_ge (show (10 : ℕ) ^ 3 ≤ digitsVal d3 by omega)
            omega
          · rw [digitsVal_natDigits]
            omega
    | none =>
      cases hmy : myMatch (lowerChars (trimChars s.data)) with
      | some t =>
        obtain ⟨mon, ys⟩ := t
        obtain ⟨hys, hysl, hysu⟩ := myMatch_spec hmy
        cases hpt : ptMonth mon with
        | some mIdx =>
          simp only [formatDate, hbr, hmy, hpt]
          have hy0 : digitsVal ys < 10 ^ 4 := by
            calc digitsVal ys < 10 ^ ys.length := digitsVal_lt_pow hys
            _ ≤ 10 ^ 4 := Nat.pow_le_pow_right (by omega) hysu
          have hm12 := ptMonth_le hpt
          by_cases h100 : digitsVal ys < 100
          · rw [if_pos h100, if_neg (show ¬ digitsVal ys + 2000 < 2000 by omega)]
            right
            refine ⟨natDigits (digitsVal ys + 2000),
              pad2 (mIdx + 1), ['0', '1'], Or.inl rfl, natDigits_all_digit _, ?_, ?_,
              pad2_length (by omega), pad2_all_digit _, rfl, by decide⟩
            · have := natDigits_length_ge (show (10 : ℕ) ^ 3 ≤ digitsVal ys + 2000 by omega)
              omega
            · rw [digitsVal_natDigits]
              omega
          · rw [if_neg h100]
            by_cases hy : digitsVal ys < 2000
            · left
              rw [if_pos hy]
            · right
              rw [if_neg hy]
              refine ⟨natDigits (digitsVal ys),
                pad2 (mIdx + 1), ['0', '1'], Or.inl rfl, natDigits_all_digit _, ?_, ?_,
                pad2_length (by omega), pad2_all_digit _, rfl, by decide⟩
              · have := natDigits_length_ge (show (10 : ℕ) ^ 3 ≤ digitsVal ys by omega)
                omega
              · rw [digitsVal_natDigits]
                omega
        | none =>
          simp only [formatDate, hbr, hmy, hpt]
          exact isoCheck_shape _
      | none =>
        simp only [formatDate, hbr, hmy]
        exact isoCheck_shape _

/-! ## Claim C7: idempotence of the date decode on its own output -/

theorem jsLowerChar_digit {c : Char} (h : c.isDigit = true) : jsLowerChar c = c := by
  unfold jsLowerChar
  rw [if_neg]
  rintro ⟨h1, -⟩
  have hb := digit_toNat_bounds h
  have h65 : (65 : ℕ) ≤ c.toNat := h1
  omega

theorem isLowerAlpha_digit {c : Char} (h : c.isDigit = true) : isLowerAlpha c = false := by
  unfold isLowerAlpha
  have hb := digit_toNat_bounds h
  have hna : ¬ ('a' ≤ c) := by
    intro hle
    have h97 : (97 : ℕ) ≤ c.toNat := hle
    omega
  simp [hna]

theorem list_len_four {α : Type} {l : List α} (h : l.length = 4) :
    ∃ a b c d, l = [a, b, c, d] := by
  match l, h with
  | [a, b, c, d], _ => exact ⟨a, b, c, d, rfl⟩

theorem list_len_two {α : Type} {l : List α} (h : l.length = 2) :
    ∃ a b, l = [a, b] := by
  match l, h with
  | [a, b], _ => exact ⟨a, b, rfl⟩

theorem formatDate_reparse {a b c d e f g h : Char}
    (hdig : ∀ x ∈ [a, b, c, d, e, f, g, h], x.isDigit = true)
    (hy : 2000 ≤ digitsVal [a, b, c, d]) :
    formatDate (.str ⟨[a, b, c, d, '-', e, f, '-', g, h]⟩)
      = ⟨[a, b, c, d, '-', e, f, '-', g, h]⟩ := by
  have ha := hdig a (by simp)
  have hb := hdig b (by simp)
  have hc := hdig c (by simp)
  have hd := hdig d (by simp)
  have he := hdig e (by simp)
  have hf := hdig f (by simp)
  have hg := hdig g (by simp)
  have hh := hdig h (by simp)
  have hws : trimChars [a, b, c, d, '-', e, f, '-', g, h]
      = [a, b, c, d, '-', e, f, '-', g, h] := by
    apply trimChars_eq_self
    intro x hx
    simp only [List.mem_cons, List.not_mem_nil, or_false] at hx
    rcases hx with rfl | rfl | rfl | rfl | rfl | rfl | rfl | rfl | rfl | rfl
    · exact not_ws_of_digit ha
    · exact not_ws_of_digit hb
    · exact not_ws_of_digit hc
    · exact not_ws_of_digit hd
    · rfl
    · exact not_ws_of_digit he
    · exact not_ws_of_digit hf
    · rfl
    · exact not_ws_of_digit hg
    · exact not_ws_of_digit hh
  have htw : ([a, b, c, d, '-', e, f, '-', g, h] : List Char).takeWhile Char.isDigit
      = [a, b, c, d] := by
    show (([a, b, c, d] : List Char) ++ '-' :: [e, f, '-', g, h]).takeWhile Char.isDigit = _
    rw [takeWhile_append_all _ (by
        intro x hx
        simp only [List.mem_cons, List.not_mem_nil, or_false] at hx
        rcases hx with rfl | rfl | rfl | rfl
        exacts [ha, hb, hc, hd]),
      takeWhile_cons_false _ (by decide)]
    simp
  have hbr : brMatch [a, b, c, d, '-', e, f, '-', g, h] = none := by
    simp only [brMatch, htw]
    rw [if_pos (Or.inr (by simp))]
  have hmy : myMatch (lowerChars [a, b, c, d, '-', e, f, '-', g, h]) = none := by
    show myMatch (jsLowerChar a :: jsLowerChar b :: jsLowerChar c :: jsLowerChar d
      :: lowerChars ['-', e, f, '-', g, h]) = none
    simp only [myMatch, isLowerAlpha_digit (jsLowerChar_digit ha ▸ ha), Bool.false_and]
    simp
  have hiso : isoCheck [a, b, c, d, '-', e, f, '-', g, h]
      = ⟨[a, b, c, d, '-', e, f, '-', g, h]⟩ := by
    show (if ('-' : Char) = '-' ∧ ('-' : Char) = '-'
          ∧ ([a, b, c, d, e, f, g, h].all Char.isDigit) = true then
        if digitsVal [a, b, c, d] < 2000 then ""
        else (⟨[a, b, c, d, '-', e, f, '-', g, h]⟩ : String)
      else "") = _
    rw [if_pos ⟨rfl, rfl, by
        simp only [List.all_cons, List.all_nil, Bool.and_eq_true]
        exact ⟨ha, hb, hc, hd, he, hf, hg, hh, trivial⟩⟩,
      if_neg (by omega)]
  show (match brMatch (trimChars [a, b, c, d, '-', e, f, '-', g, h]) with
    | some (d1, d2, d3) => _
    | none => _) = _
  rw [hws, hbr]
  show (match myMatch (lowerChars [a, b, c, d, '-', e, f, '-', g, h]) with
    | some (mon, ys) => _
    | none => _) = _
  rw [hmy]
  exact hiso

/-- C2 (amended): every `formatDate` result is either the empty string or of
the loose ISO shape `looseISO` — an all-digit year field with value ≥ 2000
(in the `+`-prefixed expanded form when the serial path resolves a year
above 9999) and two-digit numeric month and day fields.  Calendar validity
of the month and day fields is *not* guaranteed (see the counterexample). -/
theorem formatDate_looseISO (x : CellValue) :
    formatDate x = "" ∨ looseISO (formatDate x) :=
  formatDate_shape_aux x

/-- Lengths of the month/day parts of a date in days since the epoch, per
the spec's calendar rules (spec-side definition used only to state calendar
validity in the C2 counterexample). -/
def daysInMonth (y m : ℕ) : ℕ :=
  if m = 2 then (if y % 4 = 0 ∧ (y % 100 ≠ 0 ∨ y % 400 = 0) then 29 else 28)
  else if m = 4 ∨ m = 6 ∨ m = 9 ∨ m = 11 then 30
  else 31

/-- Spec-side: `s` is an ISO `YYYY-MM-DD` string denoting a *valid* calendar
date (month 1–12, day valid for that month and year) with year ≥ 2000. -/
def specValidISO (s : String) : Bool :=
  match s.data with
  | [a, b, c, d, s1, e, f, s2, g, h] =>
    s1 = '-' && s2 = '-' && ([a, b, c, d, e, f, g, h].all Char.isDigit)
      && decide (2000 ≤ digitsVal [a, b, c, d])
      && decide (1 ≤ digitsVal [e, f]) && decide (digitsVal [e, f] ≤ 12)
      && decide (1 ≤ digitsVal [g, h])
      && decide (digitsVal [g, h] ≤ daysInMonth (digitsVal [a, b, c, d]) (digitsVal [e, f]))
  | _ => false

/-- C2 counterexample: the day-first text branch performs no month/day
validation, so `"15/13/2024"` produces the non-empty string `"2024-13-15"`,
which is not a valid calendar date (month 13). -/
theorem formatDate_validity_counterexample :
    formatDate (.str "15/13/2024") = "2024-13-15"
      ∧ formatDate (.str "15/13/2024") ≠ ""
      ∧ specValidISO (formatDate (.str "15/13/2024")) = false :=
  ⟨by decide, by decide, by decide⟩

/-- C7 (amended): the date decode is idempotent on every non-empty output of
the ordinary 10-character `YYYY-MM-DD` form, i.e. whenever the resolved year
is at most 9999.  (The serial path's expanded `+YYYYYY-MM-DD` outputs for
years above 9999 are not re-recognised — see the counterexample.) -/
theorem formatDate_idem (x : CellValue) (h1 : formatDate x ≠ "")
    (h2 : (formatDate x).length = 10) :
    formatDate (.str (formatDate x)) = formatDate x := by
  rcases formatDate_shape_aux x with he | hiso
  · exact absurd he h1
  obtain ⟨Y, M, D, hdata, hY, hYlen, hYval, hMlen, hM, hDlen, hD⟩ := hiso
  have hlen' : (formatDate x).data.length = 10 := h2
  rcases hdata with hdata | hdata
  · rw [hdata] at hlen'
    simp only [List.length_append, List.length_cons, hMlen, hDlen] at hlen'
    have hY4 : Y.length = 4 := by omega
    obtain ⟨a, b, c, d, rfl⟩ := list_len_four hY4
    obtain ⟨e, f, rfl⟩ := list_len_two hMlen
    obtain ⟨g, h, rfl⟩ := list_len_two hDlen
    have hstr : formatDate x = ⟨[a, b, c, d, '-', e, f, '-', g, h]⟩ := by
      apply String.ext
      rw [hdata]
      rfl
    rw [hstr]
    apply formatDate_reparse
    · intro xx hxx
      simp only [List.mem_cons, List.not_mem_nil, or_false] at hxx
      rcases hxx with rfl | rfl | rfl | rfl | rfl | rfl | rfl | rfl
      · exact hY _ (by simp)
      · exact hY _ (by simp)
      · exact hY _ (by simp)
      · exact hY _ (by simp)
      · exact hM _ (by simp)
      · exact hM _ (by simp)
      · exact hD _ (by simp)
      · exact hD _ (by simp)
    · exact hYval
  · rw [hdata] at hlen'
    simp only [List.length_cons, List.length_append, hMlen, hDlen] at hlen'
    omega

/-- C7 counterexample: Excel serial 2958466 denotes 10000-01-01; the serial
path emits the expanded-year ISO form `"+010000-01-01"` (non-empty), but
re-decoding that string matches none of the text patterns and yields `""`,
so `formatDate (formatDate x) ≠ formatDate x`. -/
theorem formatDate_idem_counterexample :
    formatDate (.num 2958466) = "+010000-01-01"
      ∧ formatDate (.num 2958466) ≠ ""
      ∧ formatDate (.str (formatDate (.num 2958466))) = "" := by
  have hms : jsRound (((2958466 : ℚ) - 25569) * 86400000) = 253402300800000 := by
    rw [jsRound, Int.floor_eq_iff]
    norm_num
  have h1 : formatDate (.num 2958466) = "+010000-01-01" := by
    simp only [formatDate]
    rw [if_neg (show ¬ ((2958466 : ℚ) < 36526) by norm_num), hms]
    decide
  exact ⟨h1, by rw [h1]; decide, by rw [h1]; decide⟩

theorem formatDate_idem_witness :
    formatDate (.str "05/06/2024") ≠ ""
      ∧ (formatDate (.str "05/06/2024")).length = 10
      ∧ formatDate (.str (formatDate (.str "05/06/2024"))) = formatDate (.str "05/06/2024") :=
  ⟨by decide, by decide, formatDate_idem (.str "05/06/2024") (by decide) (by decide)⟩

/-! ## Claim C8: years below 2000 always decode to the empty string -/

/-- The year component of the final ISO text pattern. -/
def isoYear (v : List Char) : Option ℤ :=
  match v with
  | [a, b, c, d, s1, e, f, s2, g, h] =>
    if s1 = '-' ∧ s2 = '-' ∧ ([a, b, c, d, e, f, g, h].all Char.isDigit) = true then
      some (digitsVal [a, b, c, d] : ℤ)
    else none
  | _ => none

/-- The calendar year an input cell resolves to, per the spec's reading:
the `getFullYear` of a typed date; the proleptic-Gregorian year denoted by a
numeric serial (when it denotes a representable instant at all); and for
text, the year captured by whichever pattern matches, after promoting
two-digit years by adding 2000.  `none` when no calendar date is resolved. -/
def resolvedYear : CellValue → Option ℤ
  | .empty => none
  | .date d => some d.year
  | .num q =>
    let ms : ℤ := jsRound ((q - 25569) * 86400000)
    if 8640000000000000 < ms ∨ ms < -8640000000000000 then none
    else some (civilFromDays (ms / 86400000)).1
  | .str s =>
    match brMatch (trimChars s.data) with
    | some (_, _, d3) =>
      some ((if digitsVal d3 < 100 then digitsVal d3 + 2000 else digitsVal d3 : ℕ) : ℤ)
    | none =>
      match myMatch (lowerChars (trimChars s.data)) with
      | some (mon, ys) =>
        match ptMonth mon with
        | some _ =>
          some ((if digitsVal ys < 100 then digitsVal ys + 2000 else digitsVal ys : ℕ) : ℤ)
        | none => isoYear (trimChars s.data)
      | none => isoYear (trimChars s.data)

theorem isoCheck_year {v : List Char} {y : ℤ} (hres : isoYear v = some y)
    (hy : y < 2000) : isoCheck v = "" := by
  unfold isoYear at hres
  unfold isoCheck
  split at hres
  · next a b c d s1 e f s2 g h =>
    split_ifs at hres with hcond
    rw [Option.some.injEq] at hres
    rw [if_pos hcond, if_pos (by omega)]
  · exact Option.noConfusion hres

/-- C8: every input cell — typed date, numeric serial, or text — whose
resolved calendar year (after two-digit-year promotion) is below 2000
decodes to the empty string. -/
theorem formatDate_year_floor (x : CellValue) (y : ℤ)
    (hres : resolvedYear x = some y) (hy : y < 2000) : formatDate x = "" := by
  cases x with
  | empty => exact Option.noConfusion hres
  | date d =>
    simp only [resolvedYear, Option.some.injEq] at hres
    subst hres
    simp only [formatDate, if_pos hy]
  | num q =>
    by_cases h1 : q < 36526
    · simp only [formatDate, if_pos h1]
    · simp only [formatDate, if_neg h1]
      simp only [resolvedYear] at hres
      by_cases h2 : 8640000000000000 < jsRound ((q - 25569) * 86400000)
          ∨ jsRound ((q - 25569) * 86400000) < -8640000000000000
      · rw [if_pos h2]
      · rw [if_neg h2] at hres
        rw [if_neg h2]
        simp only [Option.some.injEq] at hres
        rw [if_pos (hres ▸ hy)]
  | str s =>
    cases hbr : brMatch (trimChars s.data) with
    | some t =>
      obtain ⟨d1, d2, d3⟩ := t
      simp only [resolvedYear, hbr, Option.some.injEq] at hres
      simp only [formatDate, hbr]
      rw [if_pos (by omega)]
    | none =>
      cases hmy : myMatch (lowerChars (trimChars s.data)) with
      | some t =>
        obtain ⟨mon, ys⟩ := t
        cases hpt : ptMonth mon with
        | some mIdx =>
          simp only [resolvedYear, hbr, hmy, hpt, Option.some.injEq] at hres
          simp only [formatDate, hbr, hmy, hpt]
          rw [if_pos (by omega)]
        | none =>
          simp only [resolvedYear, hbr, hmy, hpt] at hres
          simp only [formatDate, hbr, hmy, hpt]
          exact isoCheck_year hres hy
      | none =>
        simp only [resolvedYear, hbr, hmy] at hres
        simp only [formatDate, hbr, hmy]
        exact isoCheck_year hres hy

theorem formatDate_year_floor_witness :
    resolvedYear (.str "15/03/1999") = some 1999
      ∧ formatDate (.str "15/03/1999") = "" :=
  ⟨by decide, formatDate_year_floor (.str "15/03/1999") 1999 (by decide) (by decide)⟩

/-! ## Record types (types.ts) -/

structure CleanedSaleRecord where
  id : String
  loja : String
  codigo : String
  categoria : String
  subCategoria : String
  produto : String
  cor : String
  tamanho : String
  quantidade : ℚ
  valorTotal : ℚ
  data : String
  modelo : String
  colecao : String
  estoque : ℚ
deriving DecidableEq

structure CorteRecord where
  codigo : String
  cor : String
  tamanho : String
  quantidade : ℚ
deriving DecidableEq

structure AggregatedData where
  name : String
  value : ℚ
  count : Option ℚ
  estoque : Option ℚ
deriving DecidableEq

structure DetailedTableRow where
  id : String
  codigo : String
  produto : String
  cor : String
  tamanho : String
  qtdCortada : ℚ
  qtdVendida : ℚ
  faturado : ℚ
  percentualVendido : ℚ
deriving DecidableEq

structure DashboardMetrics where
  totalRevenue : ℚ
  totalItems : ℚ
  averageTicket : ℚ
  topStore : String
  totalStock : ℚ
  totalCut : ℚ
  sellThroughRate : ℚ
deriving DecidableEq

/-! ## JS `Map` as an insertion-ordered association list -/

/-- `Map.get`. -/
def mapGet {α : Type} (m : List (String × α)) (k : String) : Option α :=
  (m.find? (fun p => p.1 == k)).map (·.2)

/-- `Map.set`: update in place if the key exists (keeping its position),
append otherwise. -/
def mapSet {α : Type} (m : List (String × α)) (k : String) (v : α) : List (String × α) :=
  if m.any (fun p => p.1 == k) then m.map (fun p => if p.1 == k then (k, v) else p)
  else m ++ [(k, v)]

def mapKeys {α : Type} (m : List (String × α)) : List String := m.map (·.1)

theorem mapAny_iff {α : Type} (m : List (String × α)) (k : String) :
    (m.any (fun p => p.1 == k)) = true ↔ k ∈ mapKeys m := by
  rw [List.any_eq_true]
  constructor
  · rintro ⟨p, hp, he⟩
    rw [beq_iff_eq] at he
    exact he ▸ List.mem_map_of_mem _ hp
  · intro hk
    obtain ⟨p, hp, he⟩ := List.mem_map.mp hk
    exact ⟨p, hp, by rw [beq_iff_eq]; exact he⟩

theorem mapSet_cons_ne {α : Type} {p : String × α} {k : String} (v : α)
    (rest : List (String × α)) (h : ¬ p.1 = k) :
    mapSet (p :: rest) k v = p :: mapSet rest k v := by
  unfold mapSet
  have hpb : (p.1 == k) = false := by rw [beq_eq_false_iff_ne]; exact h
  simp only [List.any_cons, hpb, Bool.false_or, List.map_cons, hpb, if_neg,
    Bool.false_eq_true, not_false_eq_true]
  split
  · rfl
  · rfl

theorem mapSet_cons_eq {α : Type} {p : String × α} {k : String} (v : α)
    (rest : List (String × α)) (h : p.1 = k) (hnd : k ∉ mapKeys rest) :
    mapSet (p :: rest) k v = (k, v) :: rest := by
  unfold mapSet
  have hpb : (p.1 == k) = true := by rw [beq_iff_eq]; exact h
  simp only [List.any_cons, hpb, Bool.true_or, if_pos, List.map_cons, if_pos hpb]
  congr 1
  have hrest : ∀ q ∈ rest, (if (q.1 == k) = true then (k, v) else q) = q := by
    intro q hq
    have hqk : ¬ q.1 = k := fun he => hnd (he ▸ List.mem_map_of_mem _ hq)
    rw [if_neg (by simp only [beq_iff_eq]; exact hqk)]
  rw [List.map_congr_left hrest]
  simp

theorem mapGet_cons_ne {α : Type} {p : String × α} {k : String}
    (rest : List (String × α)) (h : ¬ p.1 = k) :
    mapGet (p :: rest) k = mapGet rest k := by
  unfold mapGet
  rw [List.find?_cons_of_neg]
  simp only [beq_iff_eq]
  exact h

theorem mapGet_cons_eq {α : Type} {p : String × α} {k : String}
    (rest : List (String × α)) (h : p.1 = k) :
    mapGet (p :: rest) k = some p.2 := by
  unfold mapGet
  rw [List.find?_cons_of_pos]
  · rfl
  · rw [beq_iff_eq]; exact h

theorem mapGet_nil {α : Type} (k : String) : mapGet ([] : List (String × α)) k = none := rfl

theorem mapKeys_mapSet {α : Type} (m : List (String × α)) (k : String) (v : α) :
    mapKeys (mapSet m k v) = if k ∈ mapKeys m then mapKeys m else mapKeys m ++ [k] := by
  unfold mapSet
  by_cases hk : k ∈ mapKeys m
  · rw [if_pos ((mapAny_iff m k).mpr hk), if_pos hk]
    unfold mapKeys
    rw [List.map_map]
    apply List.map_congr_left
    intro p hp
    by_cases hpk : p.1 = k
    · simp only [Function.comp_apply, beq_iff_eq, if_pos hpk]
      exact hpk.symm
    · simp only [Function.comp_apply, beq_iff_eq, if_neg hpk]
  · rw [if_neg (fun ha => hk ((mapAny_iff m k).mp ha)), if_neg hk]
    unfold mapKeys
    rw [List.map_append]
    rfl

theorem mapKeys_mapSet_nodup {α : Type} {m : List (String × α)} (k : String) (v : α)
    (h : (mapKeys m).Nodup) : (mapKeys (mapSet m k v)).Nodup := by
  rw [mapKeys_mapSet]
  by_cases hk : k ∈ mapKeys m
  · rw [if_pos hk]; exact h
  · rw [if_neg hk]
    rw [List.nodup_append]
    refine ⟨h, List.nodup_singleton k, ?_⟩
    simpa using hk

theorem mapGet_of_mem {α : Type} {m : List (String × α)} {p : String × α}
    (hnd : (mapKeys m).Nodup) (hp : p ∈ m) : mapGet m p.1 = some p.2 := by
  induction m with
  | nil => simp at hp
  | cons q rest ih =>
    rcases List.mem_cons.mp hp with rfl | hp
    · exact mapGet_cons_eq rest rfl
    · have hnd' : (mapKeys rest).Nodup := (List.nodup_cons.mp hnd).2
      have hq : ¬ q.1 = p.1 := by
        intro he
        have hmem : p.1 ∈ mapKeys rest := List.mem_map_of_mem _ hp
        exact (List.nodup_cons.mp hnd).1 (by show q.1 ∈ mapKeys rest; rw [he]; exact hmem)
      rw [mapGet_cons_ne rest hq]
      exact ih hnd' hp

theorem mapSet_values_sum {m : List (String × ℚ)} (k : String) (v : ℚ)
    (hnd : (mapKeys m).Nodup) :
    ((mapSet m k v).map (·.2)).sum = (m.map (·.2)).sum - ((mapGet m k).getD 0) + v := by
  induction m with
  | nil =>
    simp [mapSet, mapGet]
  | cons p rest ih =>
    have hnd' : (mapKeys rest).Nodup := (List.nodup_cons.mp hnd).2
    by_cases hpk : p.1 = k
    · have hk_rest : k ∉ mapKeys rest := by
        intro hmem
        exact (List.nodup_cons.mp hnd).1 (by show p.1 ∈ mapKeys rest; rw [hpk]; exact hmem)
      rw [mapSet_cons_eq v rest hpk hk_rest, mapGet_cons_eq rest hpk]
      simp only [List.map_cons, List.sum_cons, Option.getD_some]
      ring
    · rw [mapSet_cons_ne v rest hpk, mapGet_cons_ne rest hpk]
      simp only [List.map_cons, List.sum_cons, ih hnd']
      ring

/-! ## Number-to-string (JS `String(n)`)

Exact for integers; for fractional values the model prints up to 30 decimal
digits, which covers every decimal-representable value the pipeline's own
arithmetic can produce (JS shortest-round-trip float printing and the
exponent forms for extreme magnitudes are outside the verified claims, which
never compare stringified non-integers). -/

def fracCharsAux : ℕ → ℕ → ℕ → List Char
  | 0, _, _ => []
  | fuel + 1, num, den =>
    if num = 0 then []
    else digitChar (num * 10 / den) :: fracCharsAux fuel (num * 10 % den) den

def jsNumToString (q : ℚ) : String :=
  let n := q.num.natAbs
  let d := q.den
  ⟨(if q < 0 then ['-'] else []) ++ natDigits (n / d)
    ++ (if n % d = 0 then [] else '.' :: fracCharsAux 30 (n % d) d)⟩

/-! ## `aggregateBy` (dataProcessing lines 292–321) -/

inductive ValueKey where
  | valorTotal
  | quantidade
deriving DecidableEq

/-- `item[valueKey]`. -/
def CleanedSaleRecord.metric (r : CleanedSaleRecord) : ValueKey → ℚ
  | .valorTotal => r.valorTotal
  | .quantidade => r.quantidade

/-- `keyof CleanedSaleRecord`, the grouping-field selector. -/
inductive GroupKey where
  | id | loja | codigo | categoria | subCategoria | produto | cor | tamanho
  | quantidade | valorTotal | data | modelo | colecao | estoque
deriving DecidableEq

/-- `String(item[groupKey])`. -/
def getGroup (gk : GroupKey) (r : CleanedSaleRecord) : String :=
  match gk with
  | .id => r.id
  | .loja => r.loja
  | .codigo => r.codigo
  | .categoria => r.categoria
  | .subCategoria => r.subCategoria
  | .produto => r.produto
  | .cor => r.cor
  | .tamanho => r.tamanho
  | .quantidade => jsNumToString r.quantidade
  | .valorTotal => jsNumToString r.valorTotal
  | .data => r.data
  | .modelo => r.modelo
  | .colecao => r.colecao
  | .estoque => jsNumToString r.estoque

/-- One `data.forEach` step of `aggregateBy`: update the value, count and
stock maps for the item's group. -/
def aggStep (gk : GroupKey) (vk : ValueKey)
    (st : List (String × ℚ) × List (String × ℚ) × List (String × ℚ))
    (item : CleanedSaleRecord) :
    List (String × ℚ) × List (String × ℚ) × List (String × ℚ) :=
  let group := getGroup gk item
  (mapSet st.1 group ((mapGet st.1 group).getD 0 + item.metric vk),
   mapSet st.2.1 group ((mapGet st.2.1 group).getD 0 + item.quantidade),
   mapSet st.2.2 group ((mapGet st.2.2 group).getD 0 + item.estoque))

/-- `aggregateBy` (dataProcessing lines 292–321). -/
def aggregateBy (data : List CleanedSaleRecord) (gk : GroupKey)
    (vk : ValueKey) : List AggregatedData :=
  let st := data.foldl (aggStep gk vk) ([], [], [])
  sortLe (fun a b => decide (b.value ≤ a.value))
    (st.1.map (fun p =>
      { name := p.1, value := p.2, count := mapGet st.2.1 p.1, estoque := mapGet st.2.2 p.1 }))

theorem aggFold_inv (gk : GroupKey) (vk : ValueKey) :
    ∀ (data : List CleanedSaleRecord)
      (st : List (String × ℚ) × List (String × ℚ) × List (String × ℚ)),
      mapKeys st.1 = mapKeys st.2.1 → (mapKeys st.1).Nodup →
      mapKeys (data.foldl (aggStep gk vk) st).1
          = mapKeys (data.foldl (aggStep gk vk) st).2.1
        ∧ (mapKeys (data.foldl (aggStep gk vk) st).1).Nodup
        ∧ (((data.foldl (aggStep gk vk) st).2.1).map (·.2)).sum
            = ((st.2.1).map (·.2)).sum + (data.map (·.quantidade)).sum := by
  intro data
  induction data with
  | nil =>
    intro st h1 h2
    exact ⟨h1, h2, by simp⟩
  | cons item rest ih =>
    intro st h1 h2
    rw [List.foldl_cons]
    have hstep1 : mapKeys (aggStep gk vk st item).1 = mapKeys (aggStep gk vk st item).2.1 := by
      show mapKeys (mapSet st.1 (getGroup gk item) _)
        = mapKeys (mapSet st.2.1 (getGroup gk item) _)
      rw [mapKeys_mapSet, mapKeys_mapSet, h1]
    have hstep2 : (mapKeys (aggStep gk vk st item).1).Nodup := mapKeys_mapSet_nodup _ _ h2
    obtain ⟨ha, hb, hc⟩ := ih (aggStep gk vk st item) hstep1 hstep2
    refine ⟨ha, hb, ?_⟩
    rw [hc]
    have hstepsum : (((aggStep gk vk st item).2.1).map (·.2)).sum
        = ((st.2.1).map (·.2)).sum + item.quantidade := by
      show ((mapSet st.2.1 (getGroup gk item)
          ((mapGet st.2.1 (getGroup gk item)).getD 0 + item.quantidade)).map (·.2)).sum = _
      rw [mapSet_values_sum _ _ (h1 ▸ h2)]
      ring
    rw [hstepsum]
    simp only [List.map_cons, List.sum_cons]
    ring

theorem sum_lookup_eq {m cm : List (String × ℚ)} (hk : mapKeys m = mapKeys cm)
    (hnd : (mapKeys cm).Nodup) :
    (m.map (fun p => (mapGet cm p.1).getD 0)).sum = (cm.map (·.2)).sum := by
  have hkeys : m.map (fun p => (mapGet cm p.1).getD 0)
      = (mapKeys m).map (fun k => (mapGet cm k).getD 0) := by
    unfold mapKeys
    rw [List.map_map]
    rfl
  rw [hkeys, hk]
  clear hk hkeys m
  induction cm with
  | nil => simp [mapKeys]
  | cons p rest ih =>
    have hnd' := (List.nodup_cons.mp hnd).2
    have hp_not := (List.nodup_cons.mp hnd).1
    show ((p.1 :: mapKeys rest).map fun k => (mapGet (p :: rest) k).getD 0).sum = _
    rw [List.map_cons, mapGet_cons_eq rest rfl]
    simp only [Option.getD_some, List.sum_cons, List.map_cons]
    congr 1
    rw [List.map_congr_left (fun k hkm => by
      rw [mapGet_cons_ne rest (fun he => hp_not (by show p.1 ∈ mapKeys rest; rw [he]; exact hkm))])]
    exact ih hnd'

/-- C9: the buckets of `aggregateBy` partition the input — for every data
set, grouping field and metric choice, the sum of the `count` fields over
all output buckets equals the sum of `quantidade` over all input records. -/
theorem aggregateBy_count_sum (data : List CleanedSaleRecord) (gk : GroupKey)
    (vk : ValueKey) :
    ((aggregateBy data gk vk).map (fun b => (b.count).getD 0)).sum
      = (data.map (·.quantidade)).sum := by
  obtain ⟨hkeys, hnd, hsum⟩ := aggFold_inv gk vk data ([], [], []) rfl List.nodup_nil
  have hperm : List.Perm
      ((aggregateBy data gk vk).map (fun b => (b.count).getD 0))
      ((((data.foldl (aggStep gk vk) ([], [], [])).1.map (fun p =>
        ({ name := p.1, value := p.2,
           count := mapGet (data.foldl (aggStep gk vk) ([], [], [])).2.1 p.1,
           estoque := mapGet (data.foldl (aggStep gk vk) ([], [], [])).2.2 p.1 }
          : AggregatedData))).map (fun b => (b.count).getD 0))) :=
    List.Perm.map _ (perm_sortLe _ _)
  rw [hperm.sum_eq, List.map_map]
  have hcomp : ((data.foldl (aggStep gk vk) ([], [], [])).1.map
      ((fun (b : AggregatedData) => (b.count).getD 0) ∘ (fun p =>
        ({ name := p.1, value := p.2,
           count := mapGet (data.foldl (aggStep gk vk) ([], [], [])).2.1 p.1,
           estoque := mapGet (data.foldl (aggStep gk vk) ([], [], [])).2.2 p.1 }
          : AggregatedData)))).sum
      = ((data.foldl (aggStep gk vk) ([], [], [])).1.map (fun p =>
          (mapGet (data.foldl (aggStep gk vk) ([], [], [])).2.1 p.1).getD 0)).sum := rfl
  rw [hcomp, sum_lookup_eq hkeys (hkeys ▸ hnd)]
  simpa using hsum

theorem aggFold_qty_eq (gk : GroupKey) :
    ∀ (data : List CleanedSaleRecord)
      (st : List (String × ℚ) × List (String × ℚ) × List (String × ℚ)),
      st.1 = st.2.1 →
      (data.foldl (aggStep gk .quantidade) st).1
        = (data.foldl (aggStep gk .quantidade) st).2.1 := by
  intro data
  induction data with
  | nil => intro st h; exact h
  | cons item rest ih =>
    intro st h
    rw [List.foldl_cons]
    apply ih
    show mapSet st.1 (getGroup gk item)
          ((mapGet st.1 (getGroup gk item)).getD 0 + item.metric .quantidade)
        = mapSet st.2.1 (getGroup gk item)
          ((mapGet st.2.1 (getGroup gk item)).getD 0 + item.quantidade)
    rw [← h]
    rfl

/-- C10: with the quantity metric (`'quantidade'`), every `aggregateBy`
bucket satisfies `count = some value`, since the value map and the count map
receive identical updates. -/
theorem aggregateBy_qty_count (data : List CleanedSaleRecord) (gk : GroupKey)
    (b : AggregatedData) (hb : b ∈ aggregateBy data gk .quantidade) :
    b.count = some b.value := by
  obtain ⟨hkeys, hnd, -⟩ := aggFold_inv gk .quantidade data ([], [], []) rfl List.nodup_nil
  have heq := aggFold_qty_eq gk data ([], [], []) rfl
  simp only [aggregateBy] at hb
  rw [mem_sortLe, List.mem_map] at hb
  obtain ⟨p, hp, rfl⟩ := hb
  show mapGet (data.foldl (aggStep gk .quantidade) ([], [], [])).2.1 p.1 = some p.2
  rw [← heq]
  exact mapGet_of_mem hnd hp

/-! ## `prepareDataTable` (dataProcessing lines 323–382) -/

/-- `normalizeStr` as applied to the already-string key fields:
`String(s || '').toLowerCase().trim()` (for a string `s`, `s || ''` is `s`
up to the empty string, which maps to itself). -/
def normStr (s : String) : String := ⟨trimChars (lowerChars s.data)⟩

/-- Composite key `code|color|size`, normalised. -/
def genKey (code color size : String) : String :=
  ⟨(normStr code).data ++ '|' :: (normStr color).data ++ '|' :: (normStr size).data⟩

/-- One sales step of `prepareDataTable`: insert a zero entry if the key is
new, then accumulate sold quantity and revenue into it. -/
def salesStep (m : List (String × DetailedTableRow)) (item : CleanedSaleRecord) :
    List (String × DetailedTableRow) :=
  let key := genKey item.codigo item.cor item.tamanho
  let m' :=
    if m.any (fun p => p.1 == key) then m
    else m ++ [(key,
      { id := key, codigo := item.codigo, produto := item.produto, cor := item.cor,
        tamanho := item.tamanho, qtdCortada := 0, qtdVendida := 0, faturado := 0,
        percentualVendido := 0 })]
  m'.map (fun p => if p.1 == key then
    (p.1, { p.2 with
              qtdVendida := p.2.qtdVendida + item.quantidade
              faturado := p.2.faturado + item.valorTotal }) else p)

/-- One cut step of `prepareDataTable`: accumulate cut quantity, or insert a
`"Sem Venda"` entry for keys that were cut but never sold. -/
def corteStep (m : List (String × DetailedTableRow)) (item : CorteRecord) :
    List (String × DetailedTableRow) :=
  let key := genKey item.codigo item.cor item.tamanho
  if m.any (fun p => p.1 == key) then
    m.map (fun p => if p.1 == key then
      (p.1, { p.2 with qtdCortada := p.2.qtdCortada + item.quantidade }) else p)
  else m ++ [(key,
    { id := key, codigo := item.codigo, produto := "Sem Venda", cor := item.cor,
      tamanho := item.tamanho, qtdCortada := item.quantidade, qtdVendida := 0,
      faturado := 0, percentualVendido := 0 })]

/-- `prepareDataTable` (dataProcessing lines 323–382): merge sales and cut
records by composite key, compute the sell-through percentage, sort by code. -/
def prepareDataTable (data : List CleanedSaleRecord)
    (corteData : List CorteRecord) : List DetailedTableRow :=
  let m1 := data.foldl salesStep []
  let m2 := corteData.foldl corteStep m1
  sortLe (fun a b => decide (a.codigo ≤ b.codigo))
    ((m2.map (·.2)).map (fun entry =>
      { entry with percentualVendido :=
          if 0 < entry.qtdCortada then entry.qtdVendida / entry.qtdCortada * 100 else 0 }))

/-- C1: every `DetailRow` produced by `prepareDataTable` satisfies the
sell-through invariant — `percentualVendido` equals
`qtdVendida / qtdCortada * 100` when `qtdCortada > 0` and 0 otherwise,
with no clamping (values above 100 are returned as computed). -/
theorem prepareDataTable_pct (sales : List CleanedSaleRecord)
    (cuts : List CorteRecord) (row : DetailedTableRow)
    (h : row ∈ prepareDataTable sales cuts) :
    row.percentualVendido =
      if 0 < row.qtdCortada then row.qtdVendida / row.qtdCortada * 100 else 0 := by
  simp only [prepareDataTable] at h
  rw [mem_sortLe, List.mem_map] at h
  obtain ⟨entry, -, rfl⟩ := h
  rfl

/-! ## `calculateMetrics` (dataProcessing lines 409–445) -/

/-- The per-store revenue map built by `calculateMetrics` (lines 422–426),
in insertion order. -/
def storeSums (data : List CleanedSaleRecord) : List (String × ℚ) :=
  data.foldl (fun mp item =>
    mapSet mp item.loja ((mapGet mp item.loja).getD 0 + item.valorTotal)) []

/-- The `map.forEach` maximum scan (lines 427–434): start from
`("N/A", 0)` and take each entry whose value strictly exceeds the running
maximum. -/
def topStoreFold (m : List (String × ℚ)) : String × ℚ :=
  m.foldl (fun acc p => if acc.2 < p.2 then (p.1, p.2) else acc) ("N/A", 0)

/-- `calculateMetrics` (dataProcessing lines 409–445). -/
def calculateMetrics (data : List CleanedSaleRecord)
    (corteData : List CorteRecord) : DashboardMetrics :=
  let totalRevenue := data.foldl (fun acc curr => acc + curr.valorTotal) 0
  let totalItems := data.foldl (fun acc curr => acc + curr.quantidade) 0
  let totalStock := data.foldl (fun acc curr => acc + curr.estoque) 0
  let totalCut := corteData.foldl (fun acc curr => acc + curr.quantidade) 0
  let totalManufactured := totalItems + totalStock
  { totalRevenue := totalRevenue
    totalItems := totalItems
    averageTicket := if 0 < data.length then totalRevenue / (data.length : ℚ) else 0
    topStore := (topStoreFold (storeSums data)).1
    totalStock := totalStock
    totalCut := totalCut
    sellThroughRate :=
      if 0 < totalManufactured then totalItems / totalManufactured * 100 else 0 }

/-- Running maximum of the values of `m` starting from `a` (what the scan's
second component computes). -/
def maxFrom (m : List (String × ℚ)) (a : ℚ) : ℚ :=
  m.foldl (fun acc p => max acc p.2) a

/-- Spec-side: the first store (in insertion order) whose summed revenue
attains the maximum of the sums, or `"N/A"` when the map is empty.  (Since
every value is `≤ maxFrom m 0`, the first entry with
`maxFrom m 0 ≤ value` is exactly the first entry attaining the maximum.) -/
def specTopStore (m : List (String × ℚ)) : String :=
  match m.find? (fun p => decide (maxFrom m 0 ≤ p.2)) with
  | some p => p.1
  | none => "N/A"

theorem maxFrom_init_le (m : List (String × ℚ)) (a : ℚ) : a ≤ maxFrom m a := by
  induction m generalizing a with
  | nil => exact le_refl a
  | cons p rest ih =>
    calc a ≤ max a p.2 := le_max_left a p.2
    _ ≤ maxFrom rest (max a p.2) := ih (max a p.2)
    _ = maxFrom (p :: rest) a := rfl

theorem mem_le_maxFrom {m : List (String × ℚ)} {p : String × ℚ} (hp : p ∈ m) (a : ℚ) :
    p.2 ≤ maxFrom m a := by
  induction m generalizing a with
  | nil => simp at hp
  | cons q rest ih =>
    rcases List.mem_cons.mp hp with rfl | hp
    · calc p.2 ≤ max a p.2 := le_max_right a p.2
      _ ≤ maxFrom rest (max a p.2) := maxFrom_init_le rest _
      _ = maxFrom (p :: rest) a := rfl
    · exact ih hp (max a q.2)

theorem topStoreFold_snd (m : List (String × ℚ)) :
    ∀ (ts : String) (mr : ℚ),
      (m.foldl (fun acc p => if acc.2 < p.2 then (p.1, p.2) else acc) (ts, mr)).2
        = maxFrom m mr := by
  induction m with
  | nil => intro ts mr; rfl
  | cons p rest ih =>
    intro ts mr
    rw [List.foldl_cons]
    show (rest.foldl _ (if mr < p.2 then (p.1, p.2) else (ts, mr))).2 = maxFrom rest (max mr p.2)
    by_cases h : mr < p.2
    · rw [if_pos h, ih]
      congr 1
      exact (max_eq_right h.le).symm
    · rw [if_neg h, ih]
      congr 1
      exact (max_eq_left (not_lt.mp h)).symm

theorem topStoreFold_stable (m : List (String × ℚ)) :
    ∀ (ts : String) (mr : ℚ), (∀ p ∈ m, p.2 ≤ mr) →
      m.foldl (fun acc p => if acc.2 < p.2 then (p.1, p.2) else acc) (ts, mr) = (ts, mr) := by
  induction m with
  | nil => intro ts mr _; rfl
  | cons p rest ih =>
    intro ts mr hall
    rw [List.foldl_cons]
    show rest.foldl _ (if mr < p.2 then (p.1, p.2) else (ts, mr)) = (ts, mr)
    rw [if_neg (not_lt.mpr (hall p (List.mem_cons_self p rest)))]
    exact ih ts mr (fun q hq => hall q (List.mem_cons_of_mem p hq))

theorem topStoreFold_spec (m : List (String × ℚ)) :
    ∀ (ts : String) (mr : ℚ), mr < maxFrom m mr →
      ∃ p, m.find? (fun p => decide (maxFrom m mr ≤ p.2)) = some p
        ∧ (m.foldl (fun acc p => if acc.2 < p.2 then (p.1, p.2) else acc) (ts, mr)).1 = p.1 := by
  induction m with
  | nil =>
    intro ts mr h
    exact absurd h (lt_irrefl mr)
  | cons q rest ih =>
    intro ts mr h
    have hM : maxFrom (q :: rest) mr = maxFrom rest (max mr q.2) := rfl
    by_cases hv : maxFrom (q :: rest) mr ≤ q.2
    · -- the head attains the maximum
      have hq2 : q.2 ≤ maxFrom (q :: rest) mr := mem_le_maxFrom (List.mem_cons_self q rest) mr
      have hveq : q.2 = maxFrom (q :: rest) mr := le_antisymm hq2 hv
      have hmrq : mr < q.2 := hveq ▸ h
      refine ⟨q, List.find?_cons_of_pos _ (by rw [decide_eq_true_iff]; exact hv), ?_⟩
      rw [List.foldl_cons]
      show (rest.foldl _ (if mr < q.2 then (q.1, q.2) else (ts, mr))).1 = q.1
      rw [if_pos hmrq]
      rw [topStoreFold_stable rest q.1 q.2 (fun p hp => by
        calc p.2 ≤ maxFrom (q :: rest) mr := mem_le_maxFrom (List.mem_cons_of_mem q hp) mr
        _ = q.2 := hveq.symm)]
    · -- the maximum is attained strictly inside the tail
      have hfind : List.find? (fun p => decide (maxFrom (q :: rest) mr ≤ p.2)) (q :: rest)
          = List.find? (fun p => decide (maxFrom (q :: rest) mr ≤ p.2)) rest :=
        List.find?_cons_of_neg _ (by rw [decide_eq_true_iff]; exact hv)
      rw [hfind, List.foldl_cons]
      show ∃ p, _ ∧ (rest.foldl _ (if mr < q.2 then (q.1, q.2) else (ts, mr))).1 = p.1
      by_cases hmq : mr < q.2
      · rw [if_pos hmq]
        have hmax : max mr q.2 = q.2 := max_eq_right hmq.le
        have hrec : q.2 < maxFrom rest q.2 := by
          by_contra hle
          push_neg at hle
          have : maxFrom rest q.2 = q.2 := le_antisymm hle (maxFrom_init_le rest q.2)
          exact hv (by rw [hM, hmax, this])
        obtain ⟨p, hp1, hp2⟩ := ih q.1 q.2 hrec
        refine ⟨p, ?_, hp2⟩
        rw [← hp1]
        congr 1
        funext r
        rw [hM, hmax]
      · rw [if_neg hmq]
        have hmax : max mr q.2 = mr := max_eq_left (not_lt.mp hmq)
        have hrec : mr < maxFrom rest mr := by
          rw [hM, hmax] at h
          exact h
        obtain ⟨p, hp1, hp2⟩ := ih ts mr hrec
        refine ⟨p, ?_, hp2⟩
        rw [← hp1]
        congr 1
        funext r
        rw [hM, hmax]

/-- C3 (amended): whenever some store's summed revenue strictly exceeds the
scan's initial maximum 0, `calculateMetrics` reports the first store (in
insertion order of the revenue map) attaining the greatest summed revenue;
when every summed revenue is ≤ 0 it reports the `"N/A"` sentinel instead. -/
theorem calculateMetrics_topStore (data : List CleanedSaleRecord)
    (corte : List CorteRecord) (h : 0 < maxFrom (storeSums data) 0) :
    (calculateMetrics data corte).topStore = specTopStore (storeSums data) := by
  obtain ⟨p, hp1, hp2⟩ := topStoreFold_spec (storeSums data) "N/A" 0 h
  show (topStoreFold (storeSums data)).1 = specTopStore (storeSums data)
  unfold topStoreFold
  rw [hp2]
  unfold specTopStore
  rw [hp1]

/-- A sale line whose store has zero revenue (a retained record may have
`valorTotal = 0` as long as `quantidade > 0`). -/
def zeroSale : CleanedSaleRecord :=
  { id := "row-0", loja := "A", codigo := "X", categoria := "C", subCategoria := "S",
    produto := "P", cor := "Azul", tamanho := "M", quantidade := 1, valorTotal := 0,
    data := "2024-01-01", modelo := "N/A", colecao := "N/A", estoque := 0 }

/-- C3 counterexample: on `[zeroSale]` the only store is `"A"` (summed
revenue 0), so the store with the strictly greatest summed revenue is `"A"`;
but the scan starts its maximum at 0 and uses a strict comparison, so it
returns the `"N/A"` sentinel, not a store name. -/
theorem calculateMetrics_topStore_counterexample :
    storeSums [zeroSale] = [("A", 0)]
      ∧ specTopStore (storeSums [zeroSale]) = "A"
      ∧ (calculateMetrics [zeroSale] []).topStore = "N/A"
      ∧ ("N/A" : String) ≠ "A" := by
  have h1 : storeSums [zeroSale] = [("A", 0)] := by
    show mapSet [] "A" ((mapGet [] "A").getD 0 + (0 : ℚ)) = [("A", 0)]
    norm_num [mapSet, mapGet]
  refine ⟨h1, ?_, ?_, by decide⟩
  · rw [h1]
    show specTopStore [("A", 0)] = "A"
    unfold specTopStore
    rw [List.find?_cons_of_pos _ (by
      rw [decide_eq_true_iff]
      show maxFrom [("A", 0)] 0 ≤ 0
      norm_num [maxFrom])]
  · show (topStoreFold (storeSums [zeroSale])).1 = "N/A"
    rw [h1]
    show (if (0 : ℚ) < 0 then ("A", (0 : ℚ)) else ("N/A", 0)).1 = "N/A"
    norm_num

def tieSaleA : CleanedSaleRecord :=
  { id := "row-0", loja := "A", codigo := "X", categoria := "C", subCategoria := "S",
    produto := "P", cor := "Azul", tamanho := "M", quantidade := 1, valorTotal := 5,
    data := "2024-01-01", modelo := "N/A", colecao := "N/A", estoque := 0 }

def tieSaleB : CleanedSaleRecord :=
  { id := "row-1", loja := "B", codigo := "X", categoria := "C", subCategoria := "S",
    produto := "P", cor := "Azul", tamanho := "M", quantidade := 1, valorTotal := 5,
    data := "2024-01-01", modelo := "N/A", colecao := "N/A", estoque := 0 }

theorem calculateMetrics_topStore_witness :
    0 < maxFrom (storeSums [tieSaleA, tieSaleB]) 0
      ∧ (calculateMetrics [tieSaleA, tieSaleB] []).topStore
          = specTopStore (storeSums [tieSaleA, tieSaleB]) := by
  have h : 0 < maxFrom (storeSums [tieSaleA, tieSaleB]) 0 := by
    have hs : storeSums [tieSaleA, tieSaleB] = [("A", 5), ("B", 5)] := by
      show mapSet (mapSet [] "A" ((mapGet [] "A").getD 0 + (5 : ℚ))) "B"
          ((mapGet (mapSet [] "A" ((mapGet [] "A").getD 0 + (5 : ℚ))) "B").getD 0 + (5 : ℚ))
        = [("A", 5), ("B", 5)]
      norm_num +decide [mapSet, mapGet]
    rw [hs]
    show (0 : ℚ) < max (max 0 5) 5
    norm_num
  exact ⟨h, calculateMetrics_topStore [tieSaleA, tieSaleB] [] h⟩

def sampleSale : CleanedSaleRecord :=
  { id := "row-0", loja := "A", codigo := "X1", categoria := "C", subCategoria := "S",
    produto := "Camisa", cor := "Azul", tamanho := "M", quantidade := 5, valorTotal := 10,
    data := "2024-01-01", modelo := "N/A", colecao := "N/A", estoque := 2 }

def sampleCut : CorteRecord :=
  { codigo := "X1", cor := "Azul", tamanho := "M", quantidade := 2 }

theorem aggregateBy_qty_count_witness :
    (⟨"A", 5, some 5, some 2⟩ : AggregatedData) ∈ aggregateBy [sampleSale] .loja .quantidade
      ∧ (⟨"A", 5, some 5, some 2⟩ : AggregatedData).count
          = some (⟨"A", 5, some 5, some 2⟩ : AggregatedData).value :=
  ⟨by norm_num +decide [aggregateBy, aggStep, mapSet, mapGet, getGroup, sortLe, insertLe,
      sampleSale, CleanedSaleRecord.metric],
   aggregateBy_qty_count [sampleSale] .loja ⟨"A", 5, some 5, some 2⟩
     (by norm_num +decide [aggregateBy, aggStep, mapSet, mapGet, getGroup, sortLe, insertLe,
       sampleSale, CleanedSaleRecord.metric])⟩

theorem prepareDataTable_pct_witness :
    (⟨"x1|azul|m", "X1", "Camisa", "Azul", "M", 2, 5, 10, 250⟩ : DetailedTableRow)
        ∈ prepareDataTable [sampleSale] [sampleCut]
      ∧ (⟨"x1|azul|m", "X1", "Camisa", "Azul", "M", 2, 5, 10, 250⟩
          : DetailedTableRow).percentualVendido
        = (if 0 < (⟨"x1|azul|m", "X1", "Camisa", "Azul", "M", 2, 5, 10, 250⟩
            : DetailedTableRow).qtdCortada then
            (⟨"x1|azul|m", "X1", "Camisa", "Azul", "M", 2, 5, 10, 250⟩
              : DetailedTableRow).qtdVendida
              / (⟨"x1|azul|m", "X1", "Camisa", "Azul", "M", 2, 5, 10, 250⟩
                : DetailedTableRow).qtdCortada * 100
          else 0)
      ∧ (100 : ℚ)
        < (⟨"x1|azul|m", "X1", "Camisa", "Azul", "M", 2, 5, 10, 250⟩
            : DetailedTableRow).percentualVendido := by
  have hmem : (⟨"x1|azul|m", "X1", "Camisa", "Azul", "M", 2, 5, 10, 250⟩ : DetailedTableRow)
      ∈ prepareDataTable [sampleSale] [sampleCut] := by
    norm_num +decide [prepareDataTable, salesStep, corteStep, genKey, normStr, lowerChars,
      jsLowerChar, trimChars, mapSet, mapGet, sortLe, insertLe, sampleSale, sampleCut]
  exact ⟨hmem, prepareDataTable_pct [sampleSale] [sampleCut] _ hmem, by norm_num⟩

/-! ## `parseExcelFile`, row-processing stage (dataProcessing lines 113–209)

The workbook decoding itself (`XLSX.read`/`sheet_to_json`) is an external
library; the model starts from the row matrix it produces, exactly as the
spec's RowMatrix.  `null` and `undefined` cells are both `CellValue.empty`
(they behave identically in every operation applied to them). -/

/-- Is the cell truthy in JS (`val || fallback` takes `val`)? -/
def cellTruthy : CellValue → Bool
  | .empty => false
  | .num q => decide (q ≠ 0)
  | .str s => decide (s ≠ "")
  | .date _ => true

/-- JS `String(val)` on a truthy cell.  Dates stringify to a verbose,
timezone-dependent text; the model uses a fixed placeholder, which is sound
for every verified claim because no keyword of the header tables occurs in
it (and no claim inspects a stringified date otherwise). -/
def cellToString : CellValue → String
  | .empty => ""
  | .num q => jsNumToString q
  | .str s => s
  | .date _ => "[Date]"

/-- `normalizeStr` (line 5): `String(val || '').toLowerCase().trim()`. -/
def normalizeStr (val : CellValue) : String :=
  ⟨trimChars (lowerChars (if cellTruthy val then cellToString val else "").data)⟩

/-- `String(cell || dflt).trim()`, the text-field extraction pattern of the
record assembly. -/
def strFieldOr (c : CellValue) (dflt : String) : String :=
  ⟨trimChars (if cellTruthy c then cellToString c else dflt).data⟩

def salesKeywords : List String :=
  ["loja", "filial", "categoria", "produto", "cor", "tamanho", "valor", "total",
   "qtd", "quant", "código", "codigo"]

/-- `row.map(normalizeStr).join(' ')`. -/
def rowToStr (row : List CellValue) : List Char :=
  (List.intersperse [' '] (row.map (fun c => (normalizeStr c).data))).join

/-- `headers.findIndex(h => kws.some(k => h.includes(k)))` (as an `Option`;
the source's `-1` sentinel with its hard-coded fallback becomes `.getD`). -/
def findSpecificIdx (headers : List (List Char)) (kws : List String) : Option ℕ :=
  headers.findIdx? (fun h => kws.any (fun k => containsSub h k.data))

/-- `.map((row, index) => ...)`'s index supply. -/
def withIdx {α : Type} : ℕ → List α → List (ℕ × α)
  | _, [] => []
  | i, a :: t => (i, a) :: withIdx (i + 1) t

/-- The row-processing stage of `parseExcelFile` (lines 113–209): header
location by keyword scoring over the first 10 rows, keyword-or-positional
column resolution, per-row field extraction with defaults, validity
filtering, and the stable chronological sort. -/
def parseRows (rows : List (List CellValue)) : List CleanedSaleRecord :=
  let headerRowIndex := (List.range (min rows.length 10)).find? (fun i =>
    decide (2 ≤ (salesKeywords.filter (fun k =>
      containsSub (rowToStr (rows.getD i [])) k.data)).length))
  let headers : List (List Char) :=
    match headerRowIndex with
    | some i => (rows.getD i []).map (fun c => (normalizeStr c).data)
    | none => []
  let idxLoja := findSpecificIdx headers ["loja", "filial"]
  let idxCat := findSpecificIdx headers ["categoria"]
  let idxSub := findSpecificIdx headers ["sub", "grupo"]
  let idxProd := (findSpecificIdx headers ["produto", "descricao", "descrição"]).getD 3
  let idxCodigo :=
    (findSpecificIdx headers ["código", "codigo", "referência", "referencia", "ref"]).getD 2
  let idxCor := (findSpecificIdx headers ["cor"]).getD 4
  let idxTam := (findSpecificIdx headers ["tamanho", "tam"]).getD 5
  let idxColecao := (findSpecificIdx headers ["coleção", "colecao"]).getD 6
  let idxModelo := (findSpecificIdx headers ["modelo"]).getD 8
  let idxEstoque :=
    findSpecificIdx headers ["estoque", "saldo", "disponivel", "disponível", "atual"]
  let idxQtd := ((findSpecificIdx headers ["quant", "qtde", "qtd", "peças", "pecas"]).orElse
    (fun _ => headers.findIdx? (fun h => h == "total".data))).getD 10
  let idxVal :=
    (((findSpecificIdx headers ["líquido", "liquido", "venda líquida", "total líquido"]).orElse
      (fun _ => findSpecificIdx headers ["valor total", "venda"])).orElse
      (fun _ => findSpecificIdx headers ["valor"])).getD 14
  let idxData := (findSpecificIdx headers ["data", "emissao", "venda", "periodo", "mês"]).getD 0
  let dataRows := match headerRowIndex with
    | some i => rows.drop (i + 1)
    | none => rows
  let cleanedData := (withIdx 0 dataRows).map (fun ie =>
    ({
      id := ⟨'r' :: 'o' :: 'w' :: '-' :: natDigits ie.1⟩
      loja := match idxLoja with
        | some i => strFieldOr (ie.2.getD i .empty) "Outros"
        | none => "Outros"
      codigo := strFieldOr (ie.2.getD idxCodigo .empty) ""
      categoria := match idxCat with
        | some i => strFieldOr (ie.2.getD i .empty) "Outros"
        | none => "Outros"
      subCategoria := match idxSub with
        | some i => strFieldOr (ie.2.getD i .empty) "Outros"
        | none => "Outros"
      produto := strFieldOr (ie.2.getD idxProd .empty) "Produto"
      cor := strFieldOr (ie.2.getD idxCor .empty) "N/A"
      tamanho := strFieldOr (ie.2.getD idxTam .empty) "U"
      modelo := strFieldOr (ie.2.getD idxModelo .empty) "N/A"
      colecao := strFieldOr (ie.2.getD idxColecao .empty) "N/A"
      quantidade := cleanNumber (ie.2.getD idxQtd .empty)
      valorTotal := cleanNumber (ie.2.getD idxVal .empty)
      estoque := cleanNumber (match idxEstoque with
        | some i => ie.2.getD i .empty
        | none => .empty)
      data := formatDate (ie.2.getD idxData .empty) } : CleanedSaleRecord))
  let validData := cleanedData.filter (fun d =>
    decide (d.data ≠ "" ∧ (0 < d.valorTotal ∨ 0 < d.quantidade)))
  sortLe (fun a b => decide (a.data ≤ b.data)) validData

/-- C4 (amended): every record retained by the ingestion's row-processing
stage satisfies the retention invariant — a non-empty decoded date and
(`valorTotal > 0` or `quantidade > 0`). -/
theorem parseRows_retention (rows : List (List CellValue)) (r : CleanedSaleRecord)
    (h : r ∈ parseRows rows) :
    r.data ≠ "" ∧ (0 < r.valorTotal ∨ 0 < r.quantidade) := by
  simp only [parseRows] at h
  rw [mem_sortLe] at h
  exact of_decide_eq_true (List.mem_filter.mp h).2

/-- A two-row sales sheet: a header row recognised by the keyword scorer
(4 keyword hits) and one data row whose quantity cell is the number −5. -/
def exC4Rows : List (List CellValue) :=
  [[.str "loja", .str "codigo", .str "qtd", .str "produto", .str "cor",
    .str "tamanho", .str "colecao", .str "valor", .str "modelo", .str "data"],
   [.str "A", .str "C1", .num (-5), .str "P", .str "Azul",
    .str "M", .str "Inv", .num 10, .str "Mod", .str "01/02/2024"]]

/-- The single record `parseRows` retains from `exC4Rows`. -/
def exC4Rec : CleanedSaleRecord :=
  { id := "row-0", loja := "A", codigo := "C1", categoria := "Outros",
    subCategoria := "Outros", produto := "P", cor := "Azul", tamanho := "M",
    quantidade := -5, valorTotal := 10, data := "2024-02-01",
    modelo := "Mod", colecao := "Inv", estoque := 0 }

theorem parseRows_exC4 : parseRows exC4Rows = [exC4Rec] := by
  have hfd : formatDate (.str "01/02/2024") = "2024-02-01" := by decide
  norm_num +decide [parseRows, exC4Rows, exC4Rec, withIdx, salesKeywords,
    findSpecificIdx, rowToStr, normalizeStr, cellTruthy, cellToString,
    strFieldOr, containsSub, startsWithChars, trimChars, lowerChars,
    jsLowerChar, isJsWS, cleanNumber, sortLe, insertLe, natDigits,
    natDigitsAux, digitChar, hfd]

/-- C4 counterexample: `cleanNumber` propagates negative numbers unchanged
and the validity filter only requires `valorTotal > 0 ∨ quantidade > 0`, so a
row with quantity −5 but positive total is retained — the retained record's
`quantidade` is negative, contradicting the claimed non-negativity. -/
theorem parseRows_nonneg_counterexample :
    exC4Rec ∈ parseRows exC4Rows ∧ exC4Rec.quantidade < 0 :=
  ⟨by rw [parseRows_exC4]; exact List.mem_singleton_self _, by norm_num [exC4Rec]⟩

theorem parseRows_retention_witness :
    exC4Rec.data ≠ "" ∧ (0 < exC4Rec.valorTotal ∨ 0 < exC4Rec.quantidade) :=
  parseRows_retention exC4Rows exC4Rec
    (by rw [parseRows_exC4]; exact List.mem_singleton_self _)
